import Mathlib

/-!
FunctionPlotter: quadtree subdivision and marching-squares lookup.

A shallow embedding of `src/scripts/main.c`.

* C `double` values are taken as elements of an arbitrary linear ordered field `K`
  (exact arithmetic; `ℚ` for evaluation, `ℝ` is an instance too). Where rounding changes a
  property, `get_contour_double` gives the same table with every sum and quotient rounded
  to a 53-bit significand.
* C `int` / `short` values are `Int`. The only arithmetic on them is the sum in `binary`
  (at most 15) and `depth + 1`, evaluated only when `depth < max_depth`, so nothing
  overflows.
* A value of type `Quad*` is a value of the inductive type `Quad K`:
  `Quad.null` is the `NULL` pointer, the other constructors are a pointer to a
  `Quad` struct whose `type` tag is `none`, `tree` or `rant`, together with the
  payload struct the union member points to.
* Mutation through a pointer is modelled by returning the updated value.
  A function whose C body would dereference a pointer that is `NULL` or of the
  wrong variant returns `Option.none`.
* `perror` / `printf` output is not modelled.
* The hard-coded `equation` (built from `sin` and `cos`) is a parameter.
-/

namespace FunctionPlotter

/-! ## Data model -/

/-- The enum `Direction` (main.c 17-23). -/
inductive Direction where
  | nw
  | ne
  | sw
  | se
  | nodir
  deriving DecidableEq

/-- The enum `QuadType` (main.c 26-30). -/
inductive QuadType where
  | none
  | tree
  | rant
  deriving DecidableEq

/-- The struct `ContourStruct` (main.c 70-75): a line segment. -/
structure Contour (K : Type) where
  x1 : K
  y1 : K
  x2 : K
  y2 : K
  deriving DecidableEq

/-- A `Quad*` value (main.c 33-66).
`null` is `NULL`; `none dir` is a `Quad` as left by `create_quad`; `tree` carries the
fields of the `QuadTree` struct in declaration order (`x y width height ne nw se sw`);
`rant` carries the fields of the `Quadrant` struct, the `contour` pointer being an
`Option`. -/
inductive Quad (K : Type) where
  | null : Quad K
  | none (dir : Direction) : Quad K
  | tree (dir : Direction) (x y width height : K) (ne nw se sw : Quad K) : Quad K
  | rant (dir : Direction) (x y width height : K) (contour : Option (Contour K)) : Quad K
  deriving DecidableEq

variable {K : Type}

/-- The `type` tag read through a `Quad*`; `Option.none` for `NULL`. -/
def Quad.type : Quad K → Option QuadType
  | .null => Option.none
  | .none _ => some QuadType.none
  | .tree _ _ _ _ _ _ _ _ _ => some QuadType.tree
  | .rant _ _ _ _ _ _ => some QuadType.rant

/-- The `dir` tag read through a `Quad*`; `Option.none` for `NULL`. -/
def Quad.dir : Quad K → Option Direction
  | .null => Option.none
  | .none d => some d
  | .tree d _ _ _ _ _ _ _ _ => some d
  | .rant d _ _ _ _ _ => some d

/-- The region `(x, y, width, height)` stored in the payload of a tree or quadrant node. -/
def Quad.region : Quad K → Option (K × K × K × K)
  | .tree _ x y w h _ _ _ _ => some (x, y, w, h)
  | .rant _ x y w h _ => some (x, y, w, h)
  | _ => Option.none

/-- The contour stored in a quadrant node. -/
def Quad.contour : Quad K → Option (Contour K)
  | .rant _ _ _ _ _ c => c
  | _ => Option.none

/-- Number of `Quad` structs reachable from a pointer (0 for `NULL`). -/
def Quad.size : Quad K → Nat
  | .null => 0
  | .none _ => 1
  | .tree _ _ _ _ _ ne nw se sw => 1 + ne.size + nw.size + se.size + sw.size
  | .rant _ _ _ _ _ _ => 1

/-! ## Node construction (main.c 77-137) -/

/-- `create_quad` (main.c 78-85): a fresh quad of type `none` with the given direction. -/
def create_quad (direction : Direction) : Quad K :=
  Quad.none direction

/-- `to_quadtree` (main.c 104-120): set `type = tree` and install a fresh `QuadTree`
payload with the given region and four `NULL` children; `dir` is kept.
On `NULL` the C code dereferences the null pointer. -/
def to_quadtree (quad : Quad K) (x y width height : K) : Option (Quad K) :=
  match quad.dir with
  | Option.none => Option.none
  | some d => some (Quad.tree d x y width height Quad.null Quad.null Quad.null Quad.null)

/-- `to_quadrant` (main.c 124-137): set `type = rant` and install a fresh `Quadrant`
payload with the given region and a `NULL` contour; `dir` is kept. -/
def to_quadrant (quad : Quad K) (x y width height : K) : Option (Quad K) :=
  match quad.dir with
  | Option.none => Option.none
  | some d => some (Quad.rant d x y width height Option.none)

/-! ## Sign classification and the contour table (main.c 191-293) -/

variable [LinearOrderedField K]

/-- `binary` (main.c 191-196). -/
def binary (tl tr br bl : K) : Int :=
  8 * (if tl > 0 then 0 else 1) +
  4 * (if tr > 0 then 0 else 1) +
  2 * (if br > 0 then 0 else 1) +
  1 * (if bl > 0 then 0 else 1)

/-- `get_contour` (main.c 200-293): the `switch` on `bin`, one constructor
`⟨x1, y1, x2, y2⟩` per `case`, `Option.none` for the `default` branch. -/
def get_contour (bin : Int) (x y width height : K) : Option (Contour K) :=
  if bin = 1 then some ⟨x, y + height / 2, x + width / 2, y + height⟩
  else if bin = 2 then some ⟨x + width / 2, y + height, x + width, y + height / 2⟩
  else if bin = 3 then some ⟨x, y + height / 2, x + width, y + height / 2⟩
  else if bin = 4 then some ⟨x + width / 2, y, x + width, y + height / 2⟩
  else if bin = 5 then some ⟨x, y + height / 2, x + width, y + height / 2⟩
  else if bin = 6 then some ⟨x + width / 2, y, x + width / 2, y + height⟩
  else if bin = 7 then some ⟨x, y + height / 2, x + width / 2, y + height⟩
  else if bin = 8 then some ⟨x, y + height / 2, x + width / 2, y⟩
  else if bin = 9 then some ⟨x, y + height / 2, x + width, y + height / 2⟩
  else if bin = 10 then some ⟨x + width / 2, y, x + width, y + height / 2⟩
  else if bin = 11 then some ⟨x, y + height / 2, x + width, y + height / 2⟩
  else if bin = 12 then some ⟨x + width / 2, y, x + width / 2, y + height⟩
  else if bin = 13 then some ⟨x, y + height / 2, x + width / 2, y + height⟩
  else if bin = 14 then some ⟨x + width / 2, y, x + width, y + height / 2⟩
  else Option.none

/-- Lines 324-325 (and 329-330, 334-335, 339-340) of `divide_tree`: read the quadrant
payload of a child and store `get_contour(bin, q->x, q->y, q->width, q->height)` in its
`contour` field. Reading the `rant` member of anything but a quadrant is undefined. -/
def set_contour (bin : Int) (quad : Quad K) : Option (Quad K) :=
  match quad with
  | .rant d x y w h _ => some (Quad.rant d x y w h (get_contour bin x y w h))
  | _ => Option.none

/-! ## Recursive subdivision (main.c 299-386) -/

/-- `divide_tree` (main.c 299-386), with the scalar field as a parameter.
The result is the quad the pointer refers to after the call. -/
def divide_tree (equation : K → K → K) (quad : Quad K) (depth min_depth max_depth : Int) :
    Option (Quad K) :=
  if max_depth < min_depth then
    some quad
  else
    match quad with
    | .tree dir x y width height ne nw se sw =>
      let tl := equation x y
      let tr := equation (x + width) y
      let br := equation (x + width) (y + height)
      let bl := equation x (y + height)
      let bin := binary tl tr br bl
      if depth ≥ max_depth then do
        let nw0 ← to_quadrant (create_quad Direction.nw) x y (width / 2) (height / 2)
        let nw1 ← set_contour bin nw0
        let ne0 ← to_quadrant (create_quad Direction.ne) (x + width / 2) y (width / 2) (height / 2)
        let ne1 ← set_contour bin ne0
        let se0 ← to_quadrant (create_quad Direction.se) (x + width / 2) (y + height / 2)
          (width / 2) (height / 2)
        let se1 ← set_contour bin se0
        let sw0 ← to_quadrant (create_quad Direction.sw) x (y + height / 2) (width / 2) (height / 2)
        let sw1 ← set_contour bin sw0
        some (Quad.tree dir x y width height ne1 nw1 se1 sw1)
      else if depth < min_depth then do
        let nw0 ← to_quadtree (create_quad Direction.nw) x y (width / 2) (height / 2)
        let ne0 ← to_quadtree (create_quad Direction.ne) (x + width / 2) y (width / 2) (height / 2)
        let se0 ← to_quadtree (create_quad Direction.sw) (x + width / 2) (y + height / 2)
          (width / 2) (height / 2)
        let sw0 ← to_quadtree (create_quad Direction.se) x (y + height / 2) (width / 2) (height / 2)
        let ne1 ← divide_tree equation ne0 (depth + 1) min_depth max_depth
        let nw1 ← divide_tree equation nw0 (depth + 1) min_depth max_depth
        let se1 ← divide_tree equation se0 (depth + 1) min_depth max_depth
        let sw1 ← divide_tree equation sw0 (depth + 1) min_depth max_depth
        some (Quad.tree dir x y width height ne1 nw1 se1 sw1)
      else
        if bin = 0 ∨ bin = 15 then
          some (Quad.tree dir x y width height ne nw se sw)
        else do
          let nw0 ← to_quadtree (create_quad Direction.nw) x y (width / 2) (height / 2)
          let ne0 ← to_quadtree (create_quad Direction.ne) (x + width / 2) y (width / 2)
            (height / 2)
          let se0 ← to_quadtree (create_quad Direction.sw) (x + width / 2) (y + height / 2)
            (width / 2) (height / 2)
          let sw0 ← to_quadtree (create_quad Direction.se) x (y + height / 2) (width / 2)
            (height / 2)
          let ne1 ← divide_tree equation ne0 (depth + 1) min_depth max_depth
          let nw1 ← divide_tree equation nw0 (depth + 1) min_depth max_depth
          let se1 ← divide_tree equation se0 (depth + 1) min_depth max_depth
          let sw1 ← divide_tree equation sw0 (depth + 1) min_depth max_depth
          some (Quad.tree dir x y width height ne1 nw1 se1 sw1)
    | _ => Option.none
termination_by (max_depth - depth).toNat
decreasing_by
  all_goals simp_wf
  all_goals omega

/-- `divide_tree` (main.c 299-386) run with a bound on the nesting of calls: the same body,
where every call, the outermost included, uses up one unit of `fuel`. The outer `Option` is
`Option.none` when some call was reached with no fuel left; the inner `Option` is the result
as in `divide_tree`. -/
def divide_tree_fuel (equation : K → K → K) :
    Nat → Quad K → Int → Int → Int → Option (Option (Quad K))
  | 0, _, _, _, _ => Option.none
  | fuel + 1, quad, depth, min_depth, max_depth =>
    if max_depth < min_depth then
      some (some quad)
    else
      match quad with
      | .tree dir x y width height ne nw se sw =>
        let tl := equation x y
        let tr := equation (x + width) y
        let br := equation (x + width) (y + height)
        let bl := equation x (y + height)
        let bin := binary tl tr br bl
        if depth ≥ max_depth then
          some (do
            let nw0 ← to_quadrant (create_quad Direction.nw) x y (width / 2) (height / 2)
            let nw1 ← set_contour bin nw0
            let ne0 ← to_quadrant (create_quad Direction.ne) (x + width / 2) y (width / 2)
              (height / 2)
            let ne1 ← set_contour bin ne0
            let se0 ← to_quadrant (create_quad Direction.se) (x + width / 2) (y + height / 2)
              (width / 2) (height / 2)
            let se1 ← set_contour bin se0
            let sw0 ← to_quadrant (create_quad Direction.sw) x (y + height / 2) (width / 2)
              (height / 2)
            let sw1 ← set_contour bin sw0
            some (Quad.tree dir x y width height ne1 nw1 se1 sw1))
        else if depth < min_depth then
          match to_quadtree (create_quad Direction.nw) x y (width / 2) (height / 2),
            to_quadtree (create_quad Direction.ne) (x + width / 2) y (width / 2) (height / 2),
            to_quadtree (create_quad Direction.sw) (x + width / 2) (y + height / 2)
              (width / 2) (height / 2),
            to_quadtree (create_quad Direction.se) x (y + height / 2) (width / 2) (height / 2) with
          | some nw0, some ne0, some se0, some sw0 =>
            match divide_tree_fuel equation fuel ne0 (depth + 1) min_depth max_depth,
              divide_tree_fuel equation fuel nw0 (depth + 1) min_depth max_depth,
              divide_tree_fuel equation fuel se0 (depth + 1) min_depth max_depth,
              divide_tree_fuel equation fuel sw0 (depth + 1) min_depth max_depth with
            | some r1, some r2, some r3, some r4 =>
              some (do
                let ne1 ← r1
                let nw1 ← r2
                let se1 ← r3
                let sw1 ← r4
                some (Quad.tree dir x y width height ne1 nw1 se1 sw1))
            | _, _, _, _ => Option.none
          | _, _, _, _ => some Option.none
        else
          if bin = 0 ∨ bin = 15 then
            some (some (Quad.tree dir x y width height ne nw se sw))
          else
            match to_quadtree (create_quad Direction.nw) x y (width / 2) (height / 2),
              to_quadtree (create_quad Direction.ne) (x + width / 2) y (width / 2) (height / 2),
              to_quadtree (create_quad Direction.sw) (x + width / 2) (y + height / 2)
                (width / 2) (height / 2),
              to_quadtree (create_quad Direction.se) x (y + height / 2) (width / 2)
                (height / 2) with
            | some nw0, some ne0, some se0, some sw0 =>
              match divide_tree_fuel equation fuel ne0 (depth + 1) min_depth max_depth,
                divide_tree_fuel equation fuel nw0 (depth + 1) min_depth max_depth,
                divide_tree_fuel equation fuel se0 (depth + 1) min_depth max_depth,
                divide_tree_fuel equation fuel sw0 (depth + 1) min_depth max_depth with
              | some r1, some r2, some r3, some r4 =>
                some (do
                  let ne1 ← r1
                  let nw1 ← r2
                  let se1 ← r3
                  let sw1 ← r4
                  some (Quad.tree dir x y width height ne1 nw1 se1 sw1))
              | _, _, _, _ => Option.none
            | _, _, _, _ => some Option.none
      | _ => some Option.none

/-! ## Traversal (main.c 139-169) -/

/-- `draw_quadrant` (main.c 141-169). The result is the sequence of rectangles passed to
`SDL_RenderDrawRectF`, each given by its fields `(x, y, w, h)`; the renderer argument and
the casts to `float` are left out. The first two stores to `rect.x` and `rect.y`
(lines 161-162) are overwritten by lines 163-164. The function stores nothing through
`quad`, so the tree is the same value after the call. -/
def draw_quadrant : Quad K → List (K × K × K × K)
  | .null => []
  | .tree _ _ _ _ _ ne nw se sw =>
      draw_quadrant ne ++ draw_quadrant se ++ draw_quadrant nw ++ draw_quadrant sw
  | .rant _ x y width height contour =>
      match contour with
      | Option.none => []
      | some _ => [(x, y, width, height)]
  | .none _ => []

/-! ## Double arithmetic

The definitions above take coordinates in an exact ordered field. The C program computes in
`double`; the definitions of this section round every arithmetic result, to state what
rounding changes. -/

/-- Rounding of a rational to the nearest number with a 53-bit significand, ties to the even
significand: the rounding of IEEE-754 binary64 (`double`) arithmetic in its normal range.
Overflow, subnormal numbers, infinities and NaN are not modelled. -/
def round_double (q : ℚ) : ℚ :=
  if q = 0 then 0
  else
    let ulp : ℚ := 2 ^ (Int.log 2 |q| - 52)
    let m : ℚ := |q| / ulp
    let f : ℤ := ⌊m⌋
    let n : ℤ :=
      if m - f < 1 / 2 then f
      else if 1 / 2 < m - f then f + 1
      else if f % 2 = 0 then f else f + 1
    (if q < 0 then -1 else 1) * (n * ulp)

/-- The `double` sum `a + b`. -/
def double_add (a b : ℚ) : ℚ :=
  round_double (a + b)

/-- The `double` quotient `a / b`. -/
def double_div (a b : ℚ) : ℚ :=
  round_double (a / b)

/-- `get_contour` (main.c 200-293) in the `double` arithmetic of the C program: the same
`switch`, every `+` and `/` rounding its result. -/
def get_contour_double (bin : Int) (x y width height : ℚ) : Option (Contour ℚ) :=
  if bin = 1 then some ⟨x, double_add y (double_div height 2),
    double_add x (double_div width 2), double_add y height⟩
  else if bin = 2 then some ⟨double_add x (double_div width 2), double_add y height,
    double_add x width, double_add y (double_div height 2)⟩
  else if bin = 3 then some ⟨x, double_add y (double_div height 2),
    double_add x width, double_add y (double_div height 2)⟩
  else if bin = 4 then some ⟨double_add x (double_div width 2), y,
    double_add x width, double_add y (double_div height 2)⟩
  else if bin = 5 then some ⟨x, double_add y (double_div height 2),
    double_add x width, double_add y (double_div height 2)⟩
  else if bin = 6 then some ⟨double_add x (double_div width 2), y,
    double_add x (double_div width 2), double_add y height⟩
  else if bin = 7 then some ⟨x, double_add y (double_div height 2),
    double_add x (double_div width 2), double_add y height⟩
  else if bin = 8 then some ⟨x, double_add y (double_div height 2),
    double_add x (double_div width 2), y⟩
  else if bin = 9 then some ⟨x, double_add y (double_div height 2),
    double_add x width, double_add y (double_div height 2)⟩
  else if bin = 10 then some ⟨double_add x (double_div width 2), y,
    double_add x width, double_add y (double_div height 2)⟩
  else if bin = 11 then some ⟨x, double_add y (double_div height 2),
    double_add x width, double_add y (double_div height 2)⟩
  else if bin = 12 then some ⟨double_add x (double_div width 2), y,
    double_add x (double_div width 2), double_add y height⟩
  else if bin = 13 then some ⟨x, double_add y (double_div height 2),
    double_add x (double_div width 2), double_add y height⟩
  else if bin = 14 then some ⟨double_add x (double_div width 2), y,
    double_add x width, double_add y (double_div height 2)⟩
  else Option.none

/-- The four edge midpoints of the region `(x, y, w, h)` as the program computes them in
`double` arithmetic: top, right, bottom, left. -/
def edge_midpoints_double (x y w h : ℚ) : List (ℚ × ℚ) :=
  [(double_add x (double_div w 2), y), (double_add x w, double_add y (double_div h 2)),
   (double_add x (double_div w 2), double_add y h), (x, double_add y (double_div h 2))]

/-! ## Specification-side notions used to state the properties -/

/-- Lines 307-313 of `divide_tree`: the configuration code of the region `(x, y, w, h)`,
classified from the field values at its four corners. -/
def corner_code (equation : K → K → K) (x y w h : K) : Int :=
  binary (equation x y) (equation (x + w) y) (equation (x + w) (y + h)) (equation x (y + h))

/-- `fresh_tree d x y w h` is the quad produced by `to_quadtree(create_quad(d), x, y, w, h)`:
a tree node with four `NULL` child slots. -/
def fresh_tree (d : Direction) (x y w h : K) : Quad K :=
  Quad.tree d x y w h Quad.null Quad.null Quad.null Quad.null

/-- The four edge midpoints of the region `(x, y, w, h)`: top, right, bottom, left. -/
def edge_midpoints (x y w h : K) : List (K × K) :=
  [(x + w / 2, y), (x + w, y + h / 2), (x + w / 2, y + h), (x, y + h / 2)]

/-- The midpoints of those edges of the region `(x, y, w, h)` whose two corners have
different sign bits in the code `c` (bit 8 = tl, 4 = tr, 2 = br, 1 = bl):
top edge tl/tr, right edge tr/br, bottom edge br/bl, left edge bl/tl. -/
def crossing_midpoints (c : Int) (x y w h : K) : List (K × K) :=
  (if c / 8 % 2 ≠ c / 4 % 2 then [(x + w / 2, y)] else []) ++
  (if c / 4 % 2 ≠ c / 2 % 2 then [(x + w, y + h / 2)] else []) ++
  (if c / 2 % 2 ≠ c % 2 then [(x + w / 2, y + h)] else []) ++
  (if c % 2 ≠ c / 8 % 2 then [(x, y + h / 2)] else [])

/-- Two segments join the same unordered pair of points. -/
def same_pair (s t : Contour K) : Prop :=
  ((s.x1, s.y1) = (t.x1, t.y1) ∧ (s.x2, s.y2) = (t.x2, t.y2)) ∨
  ((s.x1, s.y1) = (t.x2, t.y2) ∧ (s.x2, s.y2) = (t.x1, t.y1))

/-- The point `(px, py)` lies in the half-open rectangle `[x, x+w) × [y, y+h)` of the
region stored in the node `q`. -/
def Quad.covers (q : Quad K) (px py : K) : Prop :=
  match q.region with
  | some (x, y, w, h) => x ≤ px ∧ px < x + w ∧ y ≤ py ∧ py < y + h
  | Option.none => False

/-- Exactly one of four propositions holds. -/
def exactly_one (a b c d : Prop) : Prop :=
  (a ∧ ¬b ∧ ¬c ∧ ¬d) ∨ (¬a ∧ b ∧ ¬c ∧ ¬d) ∨ (¬a ∧ ¬b ∧ c ∧ ¬d) ∨ (¬a ∧ ¬b ∧ ¬c ∧ d)

/-- A tree node has children when one of its four child slots is not `NULL`. -/
def Quad.has_children : Quad K → Prop
  | .tree _ _ _ _ _ ne nw se sw =>
      ne ≠ Quad.null ∨ nw ≠ Quad.null ∨ se ≠ Quad.null ∨ sw ≠ Quad.null
  | _ => False

/-- All four child slots of a tree node are filled. -/
def Quad.four_children : Quad K → Prop
  | .tree _ _ _ _ _ ne nw se sw =>
      ne ≠ Quad.null ∧ nw ≠ Quad.null ∧ se ≠ Quad.null ∧ sw ≠ Quad.null
  | _ => False

/-- A node with children has the four canonical quadrants of its own region as child
regions, and these tile its half-open rectangle: every point of the parent lies in exactly
one child and every point of a child lies in the parent. -/
def Quad.tiled : Quad K → Prop
  | .tree dir x y w h ne nw se sw =>
      (Quad.tree dir x y w h ne nw se sw).has_children →
        nw.region = some (x, y, w / 2, h / 2) ∧
        ne.region = some (x + w / 2, y, w / 2, h / 2) ∧
        sw.region = some (x, y + h / 2, w / 2, h / 2) ∧
        se.region = some (x + w / 2, y + h / 2, w / 2, h / 2) ∧
        ∀ px py : K,
          ((Quad.tree dir x y w h ne nw se sw).covers px py →
            exactly_one (nw.covers px py) (ne.covers px py) (sw.covers px py)
              (se.covers px py)) ∧
          (nw.covers px py ∨ ne.covers px py ∨ sw.covers px py ∨ se.covers px py →
            (Quad.tree dir x y w h ne nw se sw).covers px py)
  | _ => True

/-- The node `q` is a tree node with direction tag `d` and region `(x, y, w, h)`. -/
def Quad.is_tree_at (q : Quad K) (d : Direction) (x y w h : K) : Prop :=
  ∃ ne nw se sw : Quad K, q = Quad.tree d x y w h ne nw se sw

/-- The region stored in a node has positive width and height. -/
def Quad.positive : Quad K → Prop
  | .tree _ _ _ w h _ _ _ _ => 0 < w ∧ 0 < h
  | .rant _ _ _ w h _ => 0 < w ∧ 0 < h
  | _ => True

/-- `AllAt P d q`: the property `P` holds of every node of the tree rooted at `q`, each node
taken together with its depth, where `q` itself is at depth `d` and a child is one deeper
than its parent. `NULL` is not a node. -/
def Quad.AllAt (P : Int → Quad K → Prop) : Int → Quad K → Prop
  | _, .null => True
  | d, .none dir => P d (Quad.none dir)
  | d, .rant dir x y w h c => P d (Quad.rant dir x y w h c)
  | d, .tree dir x y w h ne nw se sw =>
      P d (Quad.tree dir x y w h ne nw se sw) ∧
      Quad.AllAt P (d + 1) ne ∧ Quad.AllAt P (d + 1) nw ∧
      Quad.AllAt P (d + 1) se ∧ Quad.AllAt P (d + 1) sw

/-- `AnyAt P d q`: the property `P` holds of some node of the tree rooted at `q`, the node
taken together with its depth, where `q` itself is at depth `d`. -/
def Quad.AnyAt (P : Int → Quad K → Prop) : Int → Quad K → Prop
  | _, .null => False
  | d, .none dir => P d (Quad.none dir)
  | d, .rant dir x y w h c => P d (Quad.rant dir x y w h c)
  | d, .tree dir x y w h ne nw se sw =>
      P d (Quad.tree dir x y w h ne nw se sw) ∨
      Quad.AnyAt P (d + 1) ne ∨ Quad.AnyAt P (d + 1) nw ∨
      Quad.AnyAt P (d + 1) se ∨ Quad.AnyAt P (d + 1) sw

/-- The leaves (quadrant nodes) of a tree, each once, in depth-first order with the child
order NE, SE, NW, SW. -/
def Quad.leaves : Quad K → List (Quad K)
  | .tree _ _ _ _ _ ne nw se sw => ne.leaves ++ se.leaves ++ nw.leaves ++ sw.leaves
  | .rant d x y w h c => [Quad.rant d x y w h c]
  | _ => []

/-- Every child of a tree node carries the direction tag of the slot it is stored in. -/
def Quad.tags_match : Quad K → Prop
  | .tree _ _ _ _ _ ne nw se sw =>
      (ne ≠ Quad.null → ne.dir = some Direction.ne) ∧
      (nw ≠ Quad.null → nw.dir = some Direction.nw) ∧
      (se ≠ Quad.null → se.dir = some Direction.se) ∧
      (sw ≠ Quad.null → sw.dir = some Direction.sw)
  | _ => True

/-- The pairs of midpoints of two adjacent edges of the region `(x, y, w, h)`:
top-right, right-bottom, bottom-left, left-top. -/
def adjacent_edge_pairs (x y w h : K) : List ((K × K) × (K × K)) :=
  [((x + w / 2, y), (x + w, y + h / 2)), ((x + w, y + h / 2), (x + w / 2, y + h)),
   ((x + w / 2, y + h), (x, y + h / 2)), ((x, y + h / 2), (x + w / 2, y))]

/-- The pairs of midpoints of two opposite edges of the region `(x, y, w, h)`:
top-bottom and left-right. -/
def opposite_edge_pairs (x y w h : K) : List ((K × K) × (K × K)) :=
  [((x + w / 2, y), (x + w / 2, y + h)), ((x, y + h / 2), (x + w, y + h / 2))]

/-- The segment `s` joins one of the given pairs of points, in either order. -/
def joins (s : Contour K) (pairs : List ((K × K) × (K × K))) : Prop :=
  ((s.x1, s.y1), (s.x2, s.y2)) ∈ pairs ∨ ((s.x2, s.y2), (s.x1, s.y1)) ∈ pairs

/-! ## Auxiliary facts -/

theorem binary_bounds (tl tr br bl : K) : 0 ≤ binary tl tr br bl ∧ binary tl tr br bl ≤ 15 := by
  unfold binary
  constructor <;> split_ifs <;> norm_num

theorem get_contour_eq_none_iff (c : Int) (x y w h : K) (h0 : 0 ≤ c) (h15 : c ≤ 15) :
    get_contour c x y w h = Option.none ↔ c = 0 ∨ c = 15 := by
  interval_cases c <;> simp [get_contour]

theorem divide_tree_err (equation : K → K → K) (quad : Quad K) (depth min_depth max_depth : Int)
    (h : max_depth < min_depth) :
    divide_tree equation quad depth min_depth max_depth = some quad := by
  unfold divide_tree
  simp [h]

theorem divide_tree_leaf (equation : K → K → K) (dir : Direction) (x y w h : K)
    (ne nw se sw : Quad K) (depth min_depth max_depth : Int)
    (h1 : min_depth ≤ max_depth) (h2 : max_depth ≤ depth) :
    divide_tree equation (Quad.tree dir x y w h ne nw se sw) depth min_depth max_depth =
      some (Quad.tree dir x y w h
        (Quad.rant Direction.ne (x + w / 2) y (w / 2) (h / 2)
          (get_contour (corner_code equation x y w h) (x + w / 2) y (w / 2) (h / 2)))
        (Quad.rant Direction.nw x y (w / 2) (h / 2)
          (get_contour (corner_code equation x y w h) x y (w / 2) (h / 2)))
        (Quad.rant Direction.se (x + w / 2) (y + h / 2) (w / 2) (h / 2)
          (get_contour (corner_code equation x y w h) (x + w / 2) (y + h / 2) (w / 2) (h / 2)))
        (Quad.rant Direction.sw x (y + h / 2) (w / 2) (h / 2)
          (get_contour (corner_code equation x y w h) x (y + h / 2) (w / 2) (h / 2)))) := by
  rw [divide_tree]
  simp [h2, not_lt.mpr h1, create_quad, to_quadrant, Quad.dir, set_contour, corner_code]

theorem divide_tree_sub (equation : K → K → K) (dir : Direction) (x y w h : K)
    (ne nw se sw : Quad K) (depth min_depth max_depth : Int)
    (h1 : min_depth ≤ max_depth) (h2 : depth < max_depth)
    (h3 : depth < min_depth ∨
      ¬ (corner_code equation x y w h = 0 ∨ corner_code equation x y w h = 15)) :
    divide_tree equation (Quad.tree dir x y w h ne nw se sw) depth min_depth max_depth =
      (divide_tree equation (fresh_tree Direction.ne (x + w / 2) y (w / 2) (h / 2))
        (depth + 1) min_depth max_depth).bind fun ne1 =>
      (divide_tree equation (fresh_tree Direction.nw x y (w / 2) (h / 2))
        (depth + 1) min_depth max_depth).bind fun nw1 =>
      (divide_tree equation (fresh_tree Direction.sw (x + w / 2) (y + h / 2) (w / 2) (h / 2))
        (depth + 1) min_depth max_depth).bind fun se1 =>
      (divide_tree equation (fresh_tree Direction.se x (y + h / 2) (w / 2) (h / 2))
        (depth + 1) min_depth max_depth).bind fun sw1 =>
      some (Quad.tree dir x y w h ne1 nw1 se1 sw1) := by
  rw [divide_tree]
  have h4 : ¬ max_depth ≤ depth := not_le.mpr h2
  rcases h3 with h3 | h3
  · simp [h4, h3, not_lt.mpr h1, create_quad, to_quadtree, Quad.dir, fresh_tree]
  · by_cases h5 : depth < min_depth
    · simp [h4, h5, not_lt.mpr h1, create_quad, to_quadtree, Quad.dir, fresh_tree]
    · simp only [corner_code, not_or] at h3
      simp [h4, h3, h5, not_lt.mpr h1, create_quad, to_quadtree, Quad.dir, fresh_tree]

theorem divide_tree_prune (equation : K → K → K) (dir : Direction) (x y w h : K)
    (ne nw se sw : Quad K) (depth min_depth max_depth : Int)
    (h1 : min_depth ≤ depth) (h2 : depth < max_depth)
    (h3 : corner_code equation x y w h = 0 ∨ corner_code equation x y w h = 15) :
    divide_tree equation (Quad.tree dir x y w h ne nw se sw) depth min_depth max_depth =
      some (Quad.tree dir x y w h ne nw se sw) := by
  rw [divide_tree]
  have h4 : ¬ max_depth < min_depth := by omega
  simp only [corner_code] at h3
  simp [not_le.mpr h2, not_lt.mpr h1, h3, h4]

/-- Induction along the recursion of `divide_tree` started on a node with empty child slots:
a relation between the node, the depth and the returned tree that holds in the error case,
the leaf case and the pruned case, and is preserved by subdivision, holds of every call. -/
theorem divide_tree_fresh_induction (equation : K → K → K) (min_depth max_depth : Int)
    (P : Direction → K → K → K → K → Int → Quad K → Prop)
    (herr : max_depth < min_depth → ∀ d x y w h depth, P d x y w h depth (fresh_tree d x y w h))
    (hleaf : min_depth ≤ max_depth → ∀ d x y w h depth, max_depth ≤ depth →
      P d x y w h depth (Quad.tree d x y w h
        (Quad.rant Direction.ne (x + w / 2) y (w / 2) (h / 2)
          (get_contour (corner_code equation x y w h) (x + w / 2) y (w / 2) (h / 2)))
        (Quad.rant Direction.nw x y (w / 2) (h / 2)
          (get_contour (corner_code equation x y w h) x y (w / 2) (h / 2)))
        (Quad.rant Direction.se (x + w / 2) (y + h / 2) (w / 2) (h / 2)
          (get_contour (corner_code equation x y w h) (x + w / 2) (y + h / 2) (w / 2) (h / 2)))
        (Quad.rant Direction.sw x (y + h / 2) (w / 2) (h / 2)
          (get_contour (corner_code equation x y w h) x (y + h / 2) (w / 2) (h / 2)))))
    (hprune : min_depth ≤ max_depth → ∀ d x y w h depth, min_depth ≤ depth → depth < max_depth →
      (corner_code equation x y w h = 0 ∨ corner_code equation x y w h = 15) →
      P d x y w h depth (fresh_tree d x y w h))
    (hsub : min_depth ≤ max_depth → ∀ d x y w h depth ne1 nw1 se1 sw1, depth < max_depth →
      (depth < min_depth ∨
        ¬ (corner_code equation x y w h = 0 ∨ corner_code equation x y w h = 15)) →
      ne1.is_tree_at Direction.ne (x + w / 2) y (w / 2) (h / 2) →
      nw1.is_tree_at Direction.nw x y (w / 2) (h / 2) →
      se1.is_tree_at Direction.sw (x + w / 2) (y + h / 2) (w / 2) (h / 2) →
      sw1.is_tree_at Direction.se x (y + h / 2) (w / 2) (h / 2) →
      P Direction.ne (x + w / 2) y (w / 2) (h / 2) (depth + 1) ne1 →
      P Direction.nw x y (w / 2) (h / 2) (depth + 1) nw1 →
      P Direction.sw (x + w / 2) (y + h / 2) (w / 2) (h / 2) (depth + 1) se1 →
      P Direction.se x (y + h / 2) (w / 2) (h / 2) (depth + 1) sw1 →
      P d x y w h depth (Quad.tree d x y w h ne1 nw1 se1 sw1))
    (d : Direction) (x y w h : K) (depth : Int) :
    ∃ t, divide_tree equation (fresh_tree d x y w h) depth min_depth max_depth = some t ∧
      t.is_tree_at d x y w h ∧ P d x y w h depth t := by
  by_cases hmm : max_depth < min_depth
  · exact ⟨_, divide_tree_err equation _ depth min_depth max_depth hmm, ⟨_, _, _, _, rfl⟩,
      herr hmm d x y w h depth⟩
  have hle : min_depth ≤ max_depth := not_lt.mp hmm
  suffices H : ∀ n : Nat, ∀ depth : Int, (max_depth - depth).toNat = n → ∀ d x y w h,
      ∃ t, divide_tree equation (fresh_tree d x y w h) depth min_depth max_depth = some t ∧
        t.is_tree_at d x y w h ∧ P d x y w h depth t from H _ depth rfl d x y w h
  intro n
  induction n using Nat.strong_induction_on with
  | _ n ih =>
    intro depth hn d x y w h
    by_cases hd : max_depth ≤ depth
    · exact ⟨_, divide_tree_leaf equation d x y w h _ _ _ _ depth min_depth max_depth hle hd,
        ⟨_, _, _, _, rfl⟩, hleaf hle d x y w h depth hd⟩
    have hlt : depth < max_depth := not_le.mp hd
    by_cases hs : depth < min_depth ∨
        ¬ (corner_code equation x y w h = 0 ∨ corner_code equation x y w h = 15)
    · have hm : (max_depth - (depth + 1)).toNat < n := by omega
      obtain ⟨ne1, hne, tne, pne⟩ := ih _ hm (depth + 1) rfl Direction.ne (x + w / 2) y (w / 2) (h / 2)
      obtain ⟨nw1, hnw, tnw, pnw⟩ := ih _ hm (depth + 1) rfl Direction.nw x y (w / 2) (h / 2)
      obtain ⟨se1, hse, tse, pse⟩ :=
        ih _ hm (depth + 1) rfl Direction.sw (x + w / 2) (y + h / 2) (w / 2) (h / 2)
      obtain ⟨sw1, hsw, tsw, psw⟩ := ih _ hm (depth + 1) rfl Direction.se x (y + h / 2) (w / 2) (h / 2)
      refine ⟨Quad.tree d x y w h ne1 nw1 se1 sw1, ?_, ⟨_, _, _, _, rfl⟩,
        hsub hle d x y w h depth ne1 nw1 se1 sw1 hlt hs tne tnw tse tsw pne pnw pse psw⟩
      unfold fresh_tree
      rw [divide_tree_sub equation d x y w h _ _ _ _ depth min_depth max_depth hle hlt hs,
        hne, hnw, hse, hsw]
      rfl
    · have hs2 : corner_code equation x y w h = 0 ∨ corner_code equation x y w h = 15 := by
        by_contra hc
        exact hs (Or.inr hc)
      have hs1 : min_depth ≤ depth := by
        by_contra hc
        exact hs (Or.inl (not_le.mp hc))
      exact ⟨_, divide_tree_prune equation d x y w h _ _ _ _ depth min_depth max_depth hs1 hlt hs2,
        ⟨_, _, _, _, rfl⟩, hprune hle d x y w h depth hs1 hlt hs2⟩

/-- Every call of `divide_tree` on a node with empty child slots returns a tree node with
the same direction tag and region. -/
theorem divide_tree_fresh_total (equation : K → K → K) (min_depth max_depth : Int)
    (d : Direction) (x y w h : K) (depth : Int) :
    ∃ t, divide_tree equation (fresh_tree d x y w h) depth min_depth max_depth = some t ∧
      t.is_tree_at d x y w h := by
  obtain ⟨t, ht, hs, _⟩ := divide_tree_fresh_induction equation min_depth max_depth
    (fun _ _ _ _ _ _ _ => True) (by intros; trivial) (by intros; trivial) (by intros; trivial)
    (by intros; trivial) d x y w h depth
  exact ⟨t, ht, hs⟩

/-- What the subdividing branches of `divide_tree` return: the four children are the results
of the recursive calls at `depth + 1` on fresh tree nodes for the four quadrants, and each
is a tree node for its quadrant. -/
theorem divide_tree_subdivides (equation : K → K → K) (dir : Direction) (x y w h : K)
    (ne nw se sw : Quad K) (depth min_depth max_depth : Int)
    (h1 : min_depth ≤ max_depth) (h2 : depth < max_depth)
    (h3 : depth < min_depth ∨
      ¬ (corner_code equation x y w h = 0 ∨ corner_code equation x y w h = 15)) :
    ∃ ne1 nw1 se1 sw1 : Quad K,
      divide_tree equation (fresh_tree Direction.ne (x + w / 2) y (w / 2) (h / 2))
        (depth + 1) min_depth max_depth = some ne1 ∧
      divide_tree equation (fresh_tree Direction.nw x y (w / 2) (h / 2))
        (depth + 1) min_depth max_depth = some nw1 ∧
      divide_tree equation (fresh_tree Direction.sw (x + w / 2) (y + h / 2) (w / 2) (h / 2))
        (depth + 1) min_depth max_depth = some se1 ∧
      divide_tree equation (fresh_tree Direction.se x (y + h / 2) (w / 2) (h / 2))
        (depth + 1) min_depth max_depth = some sw1 ∧
      divide_tree equation (Quad.tree dir x y w h ne nw se sw) depth min_depth max_depth =
        some (Quad.tree dir x y w h ne1 nw1 se1 sw1) ∧
      ne1.is_tree_at Direction.ne (x + w / 2) y (w / 2) (h / 2) ∧
      nw1.is_tree_at Direction.nw x y (w / 2) (h / 2) ∧
      se1.is_tree_at Direction.sw (x + w / 2) (y + h / 2) (w / 2) (h / 2) ∧
      sw1.is_tree_at Direction.se x (y + h / 2) (w / 2) (h / 2) := by
  obtain ⟨ne1, hne, tne⟩ := divide_tree_fresh_total equation min_depth max_depth Direction.ne
    (x + w / 2) y (w / 2) (h / 2) (depth + 1)
  obtain ⟨nw1, hnw, tnw⟩ := divide_tree_fresh_total equation min_depth max_depth Direction.nw
    x y (w / 2) (h / 2) (depth + 1)
  obtain ⟨se1, hse, tse⟩ := divide_tree_fresh_total equation min_depth max_depth Direction.sw
    (x + w / 2) (y + h / 2) (w / 2) (h / 2) (depth + 1)
  obtain ⟨sw1, hsw, tsw⟩ := divide_tree_fresh_total equation min_depth max_depth Direction.se
    x (y + h / 2) (w / 2) (h / 2) (depth + 1)
  refine ⟨ne1, nw1, se1, sw1, hne, hnw, hse, hsw, ?_, tne, tnw, tse, tsw⟩
  rw [divide_tree_sub equation dir x y w h ne nw se sw depth min_depth max_depth h1 h2 h3,
    hne, hnw, hse, hsw]
  rfl

omit [LinearOrderedField K] in
theorem Quad.is_tree_at.ne_null {q : Quad K} {d : Direction} {x y w h : K}
    (hq : q.is_tree_at d x y w h) : q ≠ Quad.null := by
  obtain ⟨a, b, c, e, rfl⟩ := hq
  simp

omit [LinearOrderedField K] in
theorem Quad.is_tree_at.region_eq {q : Quad K} {d : Direction} {x y w h : K}
    (hq : q.is_tree_at d x y w h) : q.region = some (x, y, w, h) := by
  obtain ⟨a, b, c, e, rfl⟩ := hq
  rfl

omit [LinearOrderedField K] in
theorem Quad.is_tree_at.type_eq {q : Quad K} {d : Direction} {x y w h : K}
    (hq : q.is_tree_at d x y w h) : q.type = some QuadType.tree := by
  obtain ⟨a, b, c, e, rfl⟩ := hq
  rfl

theorem Quad.covers_iff {q : Quad K} {x y w h : K}
    (hq : q.region = some (x, y, w, h)) (px py : K) :
    q.covers px py ↔ x ≤ px ∧ px < x + w ∧ y ≤ py ∧ py < y + h := by
  simp [Quad.covers, hq]

/-- A tree node whose child slots hold nodes with the four canonical quadrant regions is
tiled by them. -/
theorem Quad.tiled_of_regions (dir : Direction) (x y w h : K) (ne nw se sw : Quad K)
    (hnw : nw.region = some (x, y, w / 2, h / 2))
    (hne : ne.region = some (x + w / 2, y, w / 2, h / 2))
    (hsw : sw.region = some (x, y + h / 2, w / 2, h / 2))
    (hse : se.region = some (x + w / 2, y + h / 2, w / 2, h / 2)) :
    (Quad.tree dir x y w h ne nw se sw).tiled := by
  intro _
  refine ⟨hnw, hne, hsw, hse, ?_⟩
  intro px py
  have hp : (Quad.tree dir x y w h ne nw se sw).region = some (x, y, w, h) := rfl
  simp only [Quad.covers_iff hnw, Quad.covers_iff hne, Quad.covers_iff hsw, Quad.covers_iff hse,
    Quad.covers_iff hp, exactly_one]
  constructor
  · rintro ⟨b1, b2, b3, b4⟩
    rcases lt_or_le px (x + w / 2) with hx | hx <;> rcases lt_or_le py (y + h / 2) with hy | hy
    · refine Or.inl ⟨⟨b1, hx, b3, hy⟩, ?_, ?_, ?_⟩ <;> rintro ⟨c1, c2, c3, c4⟩ <;> linarith
    · refine Or.inr (Or.inr (Or.inl ⟨?_, ?_, ⟨b1, hx, hy, by linarith⟩, ?_⟩)) <;>
        rintro ⟨c1, c2, c3, c4⟩ <;> linarith
    · refine Or.inr (Or.inl ⟨?_, ⟨hx, by linarith, b3, hy⟩, ?_, ?_⟩) <;>
        rintro ⟨c1, c2, c3, c4⟩ <;> linarith
    · refine Or.inr (Or.inr (Or.inr ⟨?_, ?_, ?_, ⟨hx, by linarith, hy, by linarith⟩⟩)) <;>
        rintro ⟨c1, c2, c3, c4⟩ <;> linarith
  · rintro (⟨c1, c2, c3, c4⟩ | ⟨c1, c2, c3, c4⟩ | ⟨c1, c2, c3, c4⟩ | ⟨c1, c2, c3, c4⟩) <;>
      refine ⟨?_, ?_, ?_, ?_⟩ <;> linarith

/-! ## Sign classifier and contour table -/

/-- C1: for all corner values, `binary tl tr br bl` is
`8*[tl ≤ 0] + 4*[tr ≤ 0] + 2*[br ≤ 0] + 1*[bl ≤ 0]`, each bracket being 1 when the corner
value is non-positive and 0 otherwise, and so it is an integer in the range 0..15. -/
theorem binary_eq_nonpositive_bits (tl tr br bl : K) :
    binary tl tr br bl =
        8 * (if tl ≤ 0 then 1 else 0) + 4 * (if tr ≤ 0 then 1 else 0) +
        2 * (if br ≤ 0 then 1 else 0) + 1 * (if bl ≤ 0 then 1 else 0)
      ∧ 0 ≤ binary tl tr br bl ∧ binary tl tr br bl ≤ 15 := by
  refine ⟨?_, binary_bounds tl tr br bl⟩
  unfold binary
  simp only [gt_iff_lt, ← not_le]
  split_ifs <;> norm_num

/-- C2: for every code `c` in 0..15 and every region, `get_contour` returns no segment
if and only if `c` is 0 or 15, and for each of the other 14 codes it returns one segment. -/
theorem get_contour_none_iff (c : Int) (x y width height : K) (h0 : 0 ≤ c) (h15 : c ≤ 15) :
    (get_contour c x y width height = Option.none ↔ c = 0 ∨ c = 15) ∧
    (c ≠ 0 → c ≠ 15 → ∃ s, get_contour c x y width height = some s) := by
  interval_cases c <;> simp [get_contour]

/-- Witness for C2 at code 7 and the region `(0, 0, 2, 2)`. -/
theorem get_contour_none_iff_witness :
    (0 : Int) ≤ 7 ∧ (7 : Int) ≤ 15 ∧
    ((get_contour 7 (0 : ℚ) 0 2 2 = Option.none ↔ (7 : Int) = 0 ∨ (7 : Int) = 15) ∧
     ((7 : Int) ≠ 0 → (7 : Int) ≠ 15 → ∃ s, get_contour 7 (0 : ℚ) 0 2 2 = some s)) :=
  ⟨by decide, by decide, get_contour_none_iff 7 0 0 2 2 (by decide) (by decide)⟩

/-- C3 (amended): with the coordinates taken in exact arithmetic (any ordered field, the
reals included), for every code `c` in 1..14 and every region of positive width and height,
the segment returned by `get_contour` has both endpoints among the four edge midpoints of
the region (top, right, bottom, left), and its two endpoints are different points. -/
theorem get_contour_edge_midpoints (c : Int) (x y w h : K) (hc1 : 1 ≤ c) (hc14 : c ≤ 14)
    (hw : 0 < w) (hh : 0 < h) :
    ∃ s, get_contour c x y w h = some s ∧ (s.x1, s.y1) ∈ edge_midpoints x y w h ∧
      (s.x2, s.y2) ∈ edge_midpoints x y w h ∧ (s.x1, s.y1) ≠ (s.x2, s.y2) := by
  have hw2 : (0 : K) < w / 2 := by positivity
  have hh2 : (0 : K) < h / 2 := by positivity
  interval_cases c <;> simp [get_contour, edge_midpoints] <;> intro h1 <;> linarith

/-- Witness for C3 at code 9 and the region `(0, 0, 2, 2)`. -/
theorem get_contour_edge_midpoints_witness :
    ∃ s, get_contour 9 (0 : ℚ) 0 2 2 = some s ∧ (s.x1, s.y1) ∈ edge_midpoints (0 : ℚ) 0 2 2 ∧
      (s.x2, s.y2) ∈ edge_midpoints (0 : ℚ) 0 2 2 ∧ (s.x1, s.y1) ≠ (s.x2, s.y2) :=
  get_contour_edge_midpoints 9 0 0 2 2 (by decide) (by decide) (by norm_num) (by norm_num)

/-! ### The contour table in double arithmetic -/

theorem int_log_two_eq (r : ℚ) (n : ℤ) (h1 : (2 : ℚ) ^ n ≤ r) (h2 : r < (2 : ℚ) ^ (n + 1)) :
    Int.log 2 r = n := by
  have hr : 0 < r := lt_of_lt_of_le (by positivity) h1
  have a : n ≤ Int.log 2 r :=
    (Int.zpow_le_iff_le_log (by decide : 1 < 2) hr).mp (by exact_mod_cast h1)
  have b : Int.log 2 r < n + 1 :=
    (Int.lt_zpow_iff_log_lt (by decide : 1 < 2) hr).mp (by exact_mod_cast h2)
  omega

/-- Evaluation of the rounding at a positive rational `q` with `2^e ≤ q < 2^(e+1)`, where
`f` is the integer part of `q` counted in units of `2^(e-52)`. -/
theorem round_double_of_pos (q : ℚ) (e f : ℤ) (h1 : (2 : ℚ) ^ e ≤ q) (h2 : q < (2 : ℚ) ^ (e + 1))
    (hf1 : (f : ℚ) ≤ q / 2 ^ (e - 52)) (hf2 : q / 2 ^ (e - 52) < f + 1) :
    round_double q =
      ((if q / 2 ^ (e - 52) - f < 1 / 2 then f
        else if 1 / 2 < q / 2 ^ (e - 52) - f then f + 1
        else if f % 2 = 0 then f else f + 1 : ℤ) : ℚ) * 2 ^ (e - 52) := by
  have hq : 0 < q := lt_of_lt_of_le (by positivity) h1
  have hfl : ⌊q / 2 ^ (e - 52)⌋ = f := Int.floor_eq_iff.mpr ⟨hf1, hf2⟩
  simp only [round_double, abs_of_pos hq, int_log_two_eq q e h1 h2, hfl, hq.ne', if_false,
    not_lt.mpr hq.le, one_mul]

/-- Sample values of the rounding: `1/2` and `2^53 + 2` are representable; `2^53 + 1` lies
halfway between `2^53` and `2^53 + 2` and goes to the even significand, `2^53`; `2^53 + 3`
goes to `2^53 + 4`. -/
theorem round_double_values :
    round_double (1 / 2) = 1 / 2 ∧ round_double (2 ^ 53 + 2) = 2 ^ 53 + 2 ∧
    round_double (2 ^ 53 + 1) = 2 ^ 53 ∧ round_double (2 ^ 53 + 3) = 2 ^ 53 + 4 := by
  refine ⟨?_, ?_, ?_, ?_⟩
  · rw [round_double_of_pos (1 / 2) (-1) (2 ^ 52) (by norm_num) (by norm_num) (by norm_num)
      (by norm_num)]
    norm_num
  · rw [round_double_of_pos (2 ^ 53 + 2) 53 (2 ^ 52 + 1) (by norm_num) (by norm_num)
      (by norm_num) (by norm_num)]
    norm_num
  · rw [round_double_of_pos (2 ^ 53 + 1) 53 (2 ^ 52) (by norm_num) (by norm_num)
      (by norm_num) (by norm_num)]
    norm_num
  · rw [round_double_of_pos (2 ^ 53 + 3) 53 (2 ^ 52 + 1) (by norm_num) (by norm_num)
      (by norm_num) (by norm_num)]
    norm_num

/-- C3 (fails in the arithmetic of the program): at code 3 and the region `x = 2^53`,
`y = 0`, `width = height = 1`, of positive width and height, the sum `x + width` rounds back
to `x`, so `get_contour` in `double` arithmetic returns the segment from `(2^53, 1/2)` to
`(2^53, 1/2)`, whose two endpoints are the same point. -/
theorem get_contour_double_degenerate :
    (0 : ℚ) < 1 ∧ double_add (2 ^ 53) 1 = 2 ^ 53 ∧
    get_contour_double 3 (2 ^ 53) 0 1 1 = some ⟨2 ^ 53, 1 / 2, 2 ^ 53, 1 / 2⟩ ∧
    ¬ ∃ s, get_contour_double 3 (2 ^ 53) 0 1 1 = some s ∧ (s.x1, s.y1) ≠ (s.x2, s.y2) := by
  have hadd : double_add (2 ^ 53) 1 = 2 ^ 53 := round_double_values.2.2.1
  have hdiv : double_div 1 2 = 1 / 2 := round_double_values.1
  have hy : double_add 0 (1 / 2) = 1 / 2 := by
    rw [double_add, zero_add]
    exact round_double_values.1
  have hget : get_contour_double 3 (2 ^ 53) 0 1 1 = some ⟨2 ^ 53, 1 / 2, 2 ^ 53, 1 / 2⟩ := by
    simp only [get_contour_double, hadd, hdiv, hy]
    norm_num
  refine ⟨by norm_num, hadd, hget, ?_⟩
  rintro ⟨s, hs, hne⟩
  rw [hget] at hs
  cases hs
  exact hne rfl

/-- In `double` arithmetic both endpoints of the returned segment are still among the four
edge midpoints as the program computes them, for every code in 1..14 and every region. -/
theorem get_contour_double_edge_midpoints (c : Int) (x y w h : ℚ) (hc1 : 1 ≤ c)
    (hc14 : c ≤ 14) :
    ∃ s, get_contour_double c x y w h = some s ∧
      (s.x1, s.y1) ∈ edge_midpoints_double x y w h ∧
      (s.x2, s.y2) ∈ edge_midpoints_double x y w h := by
  interval_cases c <;> simp [get_contour_double, edge_midpoints_double]

/-- C4 (fails on the code): at code 7 (tr, br, bl non-positive, tl positive) and the region
`(0, 0, 2, 2)`, `get_contour` returns the segment from the left midpoint `(0, 1)` to the
bottom midpoint `(1, 2)`; the edges whose corners differ in sign are the top and the left
edge, so the second endpoint is not the midpoint of an edge with a sign change. -/
theorem get_contour_code7_not_separating :
    get_contour 7 (0 : ℚ) 0 2 2 = some ⟨0, 1, 1, 2⟩ ∧
    crossing_midpoints 7 (0 : ℚ) 0 2 2 = [(1, 0), (0, 1)] ∧
    ((1 : ℚ), (2 : ℚ)) ∉ crossing_midpoints 7 (0 : ℚ) 0 2 2 := by
  refine ⟨?_, ?_, ?_⟩
  · norm_num [get_contour]
  · norm_num [crossing_midpoints]
  · norm_num [crossing_midpoints]

/-- C5 (fails on the code): at the region `(0, 0, 2, 2)` code 7 gives the segment
left midpoint to bottom midpoint while its complement `15 - 7 = 8` gives left midpoint to
top midpoint, so the two codes do not join the same unordered pair of edge midpoints. -/
theorem get_contour_complement_differs :
    get_contour 7 (0 : ℚ) 0 2 2 = some ⟨0, 1, 1, 2⟩ ∧
    get_contour (15 - 7) (0 : ℚ) 0 2 2 = some ⟨0, 1, 1, 0⟩ ∧
    ¬ same_pair (⟨0, 1, 1, 2⟩ : Contour ℚ) ⟨0, 1, 1, 0⟩ := by
  refine ⟨?_, ?_, ?_⟩
  · norm_num [get_contour]
  · norm_num [get_contour]
  · norm_num [same_pair]

/-- Which non-saddle table entries separate the corner signs: on a region of positive width
and height both endpoints of the returned segment are midpoints of edges with a sign change
exactly for the codes 1, 2, 3, 4, 6 and 8; the entries for 7, 9, 11, 12, 13 and 14 are not. -/
theorem get_contour_separates_iff (c : Int) (x y w h : K) (hc1 : 1 ≤ c) (hc14 : c ≤ 14)
    (h5 : c ≠ 5) (h10 : c ≠ 10) (hw : 0 < w) (hh : 0 < h) :
    (∃ s, get_contour c x y w h = some s ∧ (s.x1, s.y1) ∈ crossing_midpoints c x y w h ∧
      (s.x2, s.y2) ∈ crossing_midpoints c x y w h) ↔
    (c = 1 ∨ c = 2 ∨ c = 3 ∨ c = 4 ∨ c = 6 ∨ c = 8) := by
  have hw2 : (0 : K) < w / 2 := by positivity
  have hh2 : (0 : K) < h / 2 := by positivity
  have e1 : x + w / 2 ≠ x := by intro e; linarith
  have e2 : y + h / 2 ≠ y := by intro e; linarith
  have e3 : x + w ≠ x := by intro e; linarith
  have e4 : y + h ≠ y := by intro e; linarith
  have e5 : x + w ≠ x + w / 2 := by intro e; linarith
  have e6 : y + h ≠ y + h / 2 := by intro e; linarith
  interval_cases c <;>
    simp [get_contour, crossing_midpoints, e1, e2, e3, e4, e5, e6, e1.symm, e2.symm, e3.symm,
      e4.symm, e5.symm, e6.symm] at h5 h10 ⊢

/-- No table entry agrees with the entry of the complementary code: on a region of positive
width and height, for every code `c` in 1..14 the segments returned for `c` and for `15 - c`
join different unordered pairs of points. -/
theorem get_contour_complement_never_same (c : Int) (x y w h : K) (hc1 : 1 ≤ c) (hc14 : c ≤ 14)
    (hw : 0 < w) (hh : 0 < h) :
    ∃ s t, get_contour c x y w h = some s ∧ get_contour (15 - c) x y w h = some t ∧
      ¬ same_pair s t := by
  have hw2 : (0 : K) < w / 2 := by positivity
  have hh2 : (0 : K) < h / 2 := by positivity
  have e1 : x + w / 2 ≠ x := by intro e; linarith
  have e2 : y + h / 2 ≠ y := by intro e; linarith
  have e3 : x + w ≠ x := by intro e; linarith
  have e4 : y + h ≠ y := by intro e; linarith
  have e5 : x + w ≠ x + w / 2 := by intro e; linarith
  have e6 : y + h ≠ y + h / 2 := by intro e; linarith
  interval_cases c <;>
    simp [get_contour, same_pair, e1, e2, e3, e4, e5, e6, e1.symm, e2.symm, e3.symm,
      e4.symm, e5.symm, e6.symm]

/-! ## Subdivision -/

/-- C6: when `max_depth < min_depth`, `divide_tree` returns at once with the node it was
called on unchanged, whatever the node, field and depth; in particular, called on a root
made by `create_quad` and `to_quadtree`, it leaves the four child slots empty, so the root
is the only node after the call. -/
theorem divide_tree_config_error (equation : K → K → K) (quad : Quad K) (dir : Direction)
    (x y w h : K) (depth min_depth max_depth : Int) (hlt : max_depth < min_depth) :
    divide_tree equation quad depth min_depth max_depth = some quad ∧
    ∃ root, to_quadtree (create_quad dir) x y w h = some root ∧
      divide_tree equation root depth min_depth max_depth = some root ∧
      ¬ root.has_children ∧ root.size = 1 :=
  ⟨divide_tree_err equation quad depth min_depth max_depth hlt,
    Quad.tree dir x y w h Quad.null Quad.null Quad.null Quad.null, rfl,
    divide_tree_err equation _ depth min_depth max_depth hlt,
    by simp [Quad.has_children], by simp [Quad.size]⟩

/-- Witness for C6: Scenario C, `max_depth = 2`, `min_depth = 5`, on the 800 by 800 root. -/
theorem divide_tree_config_error_witness :
    divide_tree (fun x _ => x - 400) (fresh_tree Direction.nodir (0 : ℚ) 0 800 800) 0 5 2 =
      some (fresh_tree Direction.nodir (0 : ℚ) 0 800 800) :=
  (divide_tree_config_error (fun x _ => x - 400) (fresh_tree Direction.nodir (0 : ℚ) 0 800 800)
    Direction.nodir 0 0 800 800 0 5 2 (by decide)).1

/-- C7: for every field, every tree node with region `(x, y, w, h)` and every
`depth ≥ max_depth ≥ min_depth`, `divide_tree` returns the node with exactly four quadrant
(leaf) children NW `(x, y, w/2, h/2)`, NE `(x+w/2, y, w/2, h/2)`, SE `(x+w/2, y+h/2, w/2, h/2)`,
SW `(x, y+h/2, w/2, h/2)`, each carrying `get_contour c` of its own sub-region, where `c` is
the code of the parent's four corners; the four leaves all carry a contour or none does, and
none does exactly when `c` is 0 or 15. -/
theorem divide_tree_at_max_depth (equation : K → K → K) (dir : Direction) (x y w h : K)
    (ne nw se sw : Quad K) (depth min_depth max_depth : Int)
    (h1 : min_depth ≤ max_depth) (h2 : max_depth ≤ depth) :
    divide_tree equation (Quad.tree dir x y w h ne nw se sw) depth min_depth max_depth =
      some (Quad.tree dir x y w h
        (Quad.rant Direction.ne (x + w / 2) y (w / 2) (h / 2)
          (get_contour (corner_code equation x y w h) (x + w / 2) y (w / 2) (h / 2)))
        (Quad.rant Direction.nw x y (w / 2) (h / 2)
          (get_contour (corner_code equation x y w h) x y (w / 2) (h / 2)))
        (Quad.rant Direction.se (x + w / 2) (y + h / 2) (w / 2) (h / 2)
          (get_contour (corner_code equation x y w h) (x + w / 2) (y + h / 2) (w / 2) (h / 2)))
        (Quad.rant Direction.sw x (y + h / 2) (w / 2) (h / 2)
          (get_contour (corner_code equation x y w h) x (y + h / 2) (w / 2) (h / 2)))) ∧
    (get_contour (corner_code equation x y w h) x y (w / 2) (h / 2) = Option.none ↔
      corner_code equation x y w h = 0 ∨ corner_code equation x y w h = 15) ∧
    (get_contour (corner_code equation x y w h) (x + w / 2) y (w / 2) (h / 2) = Option.none ↔
      corner_code equation x y w h = 0 ∨ corner_code equation x y w h = 15) ∧
    (get_contour (corner_code equation x y w h) (x + w / 2) (y + h / 2) (w / 2) (h / 2) =
        Option.none ↔
      corner_code equation x y w h = 0 ∨ corner_code equation x y w h = 15) ∧
    (get_contour (corner_code equation x y w h) x (y + h / 2) (w / 2) (h / 2) = Option.none ↔
      corner_code equation x y w h = 0 ∨ corner_code equation x y w h = 15) := by
  have hb := binary_bounds (equation x y) (equation (x + w) y) (equation (x + w) (y + h))
    (equation x (y + h))
  exact ⟨divide_tree_leaf equation dir x y w h ne nw se sw depth min_depth max_depth h1 h2,
    get_contour_eq_none_iff _ _ _ _ _ hb.1 hb.2, get_contour_eq_none_iff _ _ _ _ _ hb.1 hb.2,
    get_contour_eq_none_iff _ _ _ _ _ hb.1 hb.2, get_contour_eq_none_iff _ _ _ _ _ hb.1 hb.2⟩

/-- Witness for C7: Scenario A, the constant field 1 on the region `(0, 0, 800, 800)` with
`min_depth = max_depth = 0`: four leaves of size 400, none with a contour. -/
theorem divide_tree_at_max_depth_witness :
    divide_tree (fun _ _ => (1 : ℚ)) (fresh_tree Direction.nodir 0 0 800 800) 0 0 0 =
      some (Quad.tree Direction.nodir 0 0 800 800
        (Quad.rant Direction.ne 400 0 400 400 Option.none)
        (Quad.rant Direction.nw 0 0 400 400 Option.none)
        (Quad.rant Direction.se 400 400 400 400 Option.none)
        (Quad.rant Direction.sw 0 400 400 400 Option.none)) := by
  have hc : corner_code (fun _ _ => (1 : ℚ)) 0 0 800 800 = 0 := by
    simp [corner_code, binary]
  obtain ⟨ht, hnw, hne, hse, hsw⟩ := divide_tree_at_max_depth (fun _ _ => (1 : ℚ))
    Direction.nodir 0 0 800 800 Quad.null Quad.null Quad.null Quad.null 0 0 0
    (le_refl 0) (le_refl 0)
  rw [hnw.mpr (Or.inl hc), hne.mpr (Or.inl hc), hse.mpr (Or.inl hc), hsw.mpr (Or.inl hc)] at ht
  norm_num at ht
  exact ht

/-- C8: for every field, every tree node and every `depth < min_depth ≤ max_depth`,
`divide_tree` gives the node four tree-typed children for its four quadrants, whatever the
configuration code is, each child being the result of the recursive call at `depth + 1`
(the children in the `se` and `sw` slots carry the direction tags `sw` and `se`);
consequently in the tree built from depth 0 on a fresh root every node at a depth below
`min_depth` has all four child slots filled. -/
theorem divide_tree_below_min_depth (equation : K → K → K) (dir : Direction) (x y w h : K)
    (ne nw se sw : Quad K) (depth min_depth max_depth : Int)
    (h1 : depth < min_depth) (h2 : min_depth ≤ max_depth) :
    (∃ ne1 nw1 se1 sw1 : Quad K,
      divide_tree equation (fresh_tree Direction.ne (x + w / 2) y (w / 2) (h / 2))
        (depth + 1) min_depth max_depth = some ne1 ∧
      divide_tree equation (fresh_tree Direction.nw x y (w / 2) (h / 2))
        (depth + 1) min_depth max_depth = some nw1 ∧
      divide_tree equation (fresh_tree Direction.sw (x + w / 2) (y + h / 2) (w / 2) (h / 2))
        (depth + 1) min_depth max_depth = some se1 ∧
      divide_tree equation (fresh_tree Direction.se x (y + h / 2) (w / 2) (h / 2))
        (depth + 1) min_depth max_depth = some sw1 ∧
      divide_tree equation (Quad.tree dir x y w h ne nw se sw) depth min_depth max_depth =
        some (Quad.tree dir x y w h ne1 nw1 se1 sw1) ∧
      ne1.type = some QuadType.tree ∧ nw1.type = some QuadType.tree ∧
      se1.type = some QuadType.tree ∧ sw1.type = some QuadType.tree ∧
      ne1.region = some (x + w / 2, y, w / 2, h / 2) ∧
      nw1.region = some (x, y, w / 2, h / 2) ∧
      se1.region = some (x + w / 2, y + h / 2, w / 2, h / 2) ∧
      sw1.region = some (x, y + h / 2, w / 2, h / 2)) ∧
    (∃ t, divide_tree equation (fresh_tree dir x y w h) 0 min_depth max_depth = some t ∧
      Quad.AllAt (fun k q => k < min_depth → q.four_children) 0 t) := by
  constructor
  · obtain ⟨ne1, nw1, se1, sw1, e1, e2, e3, e4, e5, t1, t2, t3, t4⟩ :=
      divide_tree_subdivides equation dir x y w h ne nw se sw depth min_depth max_depth h2
        (lt_of_lt_of_le h1 h2) (Or.inl h1)
    exact ⟨ne1, nw1, se1, sw1, e1, e2, e3, e4, e5, t1.type_eq, t2.type_eq, t3.type_eq,
      t4.type_eq, t1.region_eq, t2.region_eq, t3.region_eq, t4.region_eq⟩
  · obtain ⟨t, ht, _, hP⟩ := divide_tree_fresh_induction equation min_depth max_depth
      (fun _ _ _ _ _ k t => Quad.AllAt (fun k q => k < min_depth → q.four_children) k t)
      (fun hlt => absurd h2 (not_le.mpr hlt))
      (by
        intro _ d x y w h k hk
        simp only [Quad.AllAt]
        refine ⟨?_, ?_, ?_, ?_, ?_⟩ <;> intro hc <;> omega)
      (by
        intro _ d x y w h k hk _ _
        simp only [fresh_tree, Quad.AllAt, and_true]
        intro hc
        omega)
      (by
        intro _ d x y w h k ne1 nw1 se1 sw1 _ _ t1 t2 t3 t4 p1 p2 p3 p4
        simp only [Quad.AllAt]
        exact ⟨fun _ => ⟨t1.ne_null, t2.ne_null, t3.ne_null, t4.ne_null⟩, p1, p2, p3, p4⟩)
      dir x y w h 0
    exact ⟨t, ht, hP⟩

/-- Witness for C8: the field `x - 400` on the region `(0, 0, 800, 800)`, depth 0,
`min_depth = 1`, `max_depth = 3`. -/
theorem divide_tree_below_min_depth_witness :
    ∃ t, divide_tree (fun x _ => x - 400) (fresh_tree Direction.nodir (0 : ℚ) 0 800 800) 0 1 3 =
        some t ∧
      Quad.AllAt (fun k q => k < 1 → q.four_children) 0 t :=
  (divide_tree_below_min_depth (fun x _ => x - 400) Direction.nodir (0 : ℚ) 0 800 800
    Quad.null Quad.null Quad.null Quad.null 0 1 3 (by decide) (by decide)).2

/-- C9: for every field, every tree node and every `min_depth ≤ depth < max_depth`,
`divide_tree` prunes by sign. If the code of the node's four corners is 0 or 15 the node is
returned unchanged, so a fresh node keeps four empty child slots and nothing is built below
it. Otherwise the node gets four tree-typed children for its four quadrants, each being the
result of the recursive call at `depth + 1`. -/
theorem divide_tree_between_depths (equation : K → K → K) (dir : Direction) (x y w h : K)
    (ne nw se sw : Quad K) (depth min_depth max_depth : Int)
    (h1 : min_depth ≤ depth) (h2 : depth < max_depth) :
    ((corner_code equation x y w h = 0 ∨ corner_code equation x y w h = 15) →
      divide_tree equation (Quad.tree dir x y w h ne nw se sw) depth min_depth max_depth =
        some (Quad.tree dir x y w h ne nw se sw) ∧
      divide_tree equation (fresh_tree dir x y w h) depth min_depth max_depth =
        some (fresh_tree dir x y w h) ∧
      ¬ (fresh_tree dir x y w h).has_children ∧ (fresh_tree dir x y w h).size = 1) ∧
    (¬ (corner_code equation x y w h = 0 ∨ corner_code equation x y w h = 15) →
      ∃ ne1 nw1 se1 sw1 : Quad K,
        divide_tree equation (fresh_tree Direction.ne (x + w / 2) y (w / 2) (h / 2))
          (depth + 1) min_depth max_depth = some ne1 ∧
        divide_tree equation (fresh_tree Direction.nw x y (w / 2) (h / 2))
          (depth + 1) min_depth max_depth = some nw1 ∧
        divide_tree equation (fresh_tree Direction.sw (x + w / 2) (y + h / 2) (w / 2) (h / 2))
          (depth + 1) min_depth max_depth = some se1 ∧
        divide_tree equation (fresh_tree Direction.se x (y + h / 2) (w / 2) (h / 2))
          (depth + 1) min_depth max_depth = some sw1 ∧
        divide_tree equation (Quad.tree dir x y w h ne nw se sw) depth min_depth max_depth =
          some (Quad.tree dir x y w h ne1 nw1 se1 sw1) ∧
        ne1.type = some QuadType.tree ∧ nw1.type = some QuadType.tree ∧
        se1.type = some QuadType.tree ∧ sw1.type = some QuadType.tree ∧
        ne1.region = some (x + w / 2, y, w / 2, h / 2) ∧
        nw1.region = some (x, y, w / 2, h / 2) ∧
        se1.region = some (x + w / 2, y + h / 2, w / 2, h / 2) ∧
        sw1.region = some (x, y + h / 2, w / 2, h / 2)) := by
  constructor
  · intro hc
    exact ⟨divide_tree_prune equation dir x y w h ne nw se sw depth min_depth max_depth h1 h2 hc,
      divide_tree_prune equation dir x y w h _ _ _ _ depth min_depth max_depth h1 h2 hc,
      by simp [fresh_tree, Quad.has_children], by simp [fresh_tree, Quad.size]⟩
  · intro hc
    obtain ⟨ne1, nw1, se1, sw1, e1, e2, e3, e4, e5, t1, t2, t3, t4⟩ :=
      divide_tree_subdivides equation dir x y w h ne nw se sw depth min_depth max_depth
        (le_of_lt (lt_of_le_of_lt h1 h2)) h2 (Or.inr hc)
    exact ⟨ne1, nw1, se1, sw1, e1, e2, e3, e4, e5, t1.type_eq, t2.type_eq, t3.type_eq,
      t4.type_eq, t1.region_eq, t2.region_eq, t3.region_eq, t4.region_eq⟩

/-- Witness for C9: the field `x - 400`, `min_depth = 1`, `max_depth = 3`, at depth 1 on the
left half quadrant `(0, 0, 400, 400)`, whose corner on the line `x = 400` is non-positive
like the others (code 15): the node is returned unchanged. -/
theorem divide_tree_between_depths_witness :
    divide_tree (fun x _ => x - 400) (fresh_tree Direction.nw (0 : ℚ) 0 400 400) 1 1 3 =
      some (fresh_tree Direction.nw (0 : ℚ) 0 400 400) :=
  ((divide_tree_between_depths (fun x _ => x - 400) Direction.nw (0 : ℚ) 0 400 400
    Quad.null Quad.null Quad.null Quad.null 1 1 3 (by decide) (by decide)).1
      (Or.inr (by norm_num [corner_code, binary]))).1

/-- C10: in the tree built by `divide_tree` on a fresh root of positive width and height,
every node has a region of positive width and height, and every node that has children has
the child regions NW `(x, y, w/2, h/2)`, NE `(x+w/2, y, w/2, h/2)`, SW `(x, y+h/2, w/2, h/2)`,
SE `(x+w/2, y+h/2, w/2, h/2)` of its own region `(x, y, w, h)`; these tile the parent: every
point of the parent's half-open rectangle lies in exactly one child's half-open rectangle
and every point of a child lies in the parent. -/
theorem divide_tree_tiling (equation : K → K → K) (dir : Direction) (x y w h : K)
    (depth min_depth max_depth : Int) (hw : 0 < w) (hh : 0 < h) :
    ∃ t, divide_tree equation (fresh_tree dir x y w h) depth min_depth max_depth = some t ∧
      Quad.AllAt (fun _ q => q.tiled ∧ q.positive) depth t := by
  obtain ⟨t, ht, _, hP⟩ := divide_tree_fresh_induction equation min_depth max_depth
    (fun _ _ _ w h k t => 0 < w → 0 < h → Quad.AllAt (fun _ q => q.tiled ∧ q.positive) k t)
    (by
      intro _ d x y w h k hw hh
      simp only [fresh_tree, Quad.AllAt, and_true]
      exact ⟨fun hc => by simp [Quad.has_children] at hc, hw, hh⟩)
    (by
      intro _ d x y w h k _ hw hh
      have hw2 : 0 < w / 2 := by positivity
      have hh2 : 0 < h / 2 := by positivity
      simp only [Quad.AllAt]
      exact ⟨⟨Quad.tiled_of_regions d x y w h _ _ _ _ rfl rfl rfl rfl, hw, hh⟩,
        ⟨trivial, hw2, hh2⟩, ⟨trivial, hw2, hh2⟩, ⟨trivial, hw2, hh2⟩, ⟨trivial, hw2, hh2⟩⟩)
    (by
      intro _ d x y w h k _ _ _ hw hh
      simp only [fresh_tree, Quad.AllAt, and_true]
      exact ⟨fun hc => by simp [Quad.has_children] at hc, hw, hh⟩)
    (by
      intro _ d x y w h k ne1 nw1 se1 sw1 _ _ t1 t2 t3 t4 p1 p2 p3 p4 hw hh
      have hw2 : 0 < w / 2 := by positivity
      have hh2 : 0 < h / 2 := by positivity
      simp only [Quad.AllAt]
      exact ⟨⟨Quad.tiled_of_regions d x y w h _ _ _ _ t2.region_eq t1.region_eq t4.region_eq
        t3.region_eq, hw, hh⟩, p1 hw2 hh2, p2 hw2 hh2, p3 hw2 hh2, p4 hw2 hh2⟩)
    dir x y w h depth
  exact ⟨t, ht, hP hw hh⟩

/-- Witness for C10: the field `x - 400` on the region `(0, 0, 800, 800)`, built from
depth 0 with `min_depth = 1` and `max_depth = 3`. -/
theorem divide_tree_tiling_witness :
    ∃ t, divide_tree (fun x _ => x - 400) (fresh_tree Direction.nodir (0 : ℚ) 0 800 800) 0 1 3 =
        some t ∧
      Quad.AllAt (fun _ q => q.tiled ∧ q.positive) 0 t :=
  divide_tree_tiling (fun x _ => x - 400) Direction.nodir (0 : ℚ) 0 800 800 0 1 3
    (by norm_num) (by norm_num)

/-! ## Invariants of the tree built by `divide_tree` -/

theorem corner_code_of_pos (equation : K → K → K) (hpos : ∀ x y, 0 < equation x y)
    (x y w h : K) : corner_code equation x y w h = 0 := by
  simp [corner_code, binary, hpos]

theorem get_contour_out_of_range (c : Int) (x y w h : K) (hc : c < 1 ∨ 14 < c) :
    get_contour c x y w h = Option.none := by
  have e1 : c ≠ 1 := by omega
  have e2 : c ≠ 2 := by omega
  have e3 : c ≠ 3 := by omega
  have e4 : c ≠ 4 := by omega
  have e5 : c ≠ 5 := by omega
  have e6 : c ≠ 6 := by omega
  have e7 : c ≠ 7 := by omega
  have e8 : c ≠ 8 := by omega
  have e9 : c ≠ 9 := by omega
  have e10 : c ≠ 10 := by omega
  have e11 : c ≠ 11 := by omega
  have e12 : c ≠ 12 := by omega
  have e13 : c ≠ 13 := by omega
  have e14 : c ≠ 14 := by omega
  simp only [get_contour, if_neg e1, if_neg e2, if_neg e3, if_neg e4, if_neg e5, if_neg e6,
    if_neg e7, if_neg e8, if_neg e9, if_neg e10, if_neg e11, if_neg e12, if_neg e13, if_neg e14]

/-- C11: for every field, every root region and all `0 ≤ min_depth ≤ max_depth`, in the tree
built by `divide_tree` from depth 0 on a fresh root no node has a depth (root = 0, a child
one more than its parent) greater than `max_depth + 1`. -/
theorem divide_tree_depth_bound (equation : K → K → K) (dir : Direction) (x y w h : K)
    (min_depth max_depth : Int) (h0 : 0 ≤ min_depth) (h1 : min_depth ≤ max_depth) :
    ∃ t, divide_tree equation (fresh_tree dir x y w h) 0 min_depth max_depth = some t ∧
      Quad.AllAt (fun k _ => k ≤ max_depth + 1) 0 t := by
  obtain ⟨t, ht, _, hP⟩ := divide_tree_fresh_induction equation min_depth max_depth
    (fun _ _ _ _ _ k t => k ≤ max_depth → Quad.AllAt (fun j _ => j ≤ max_depth + 1) k t)
    (fun hlt => absurd h1 (not_le.mpr hlt))
    (by
      intro _ d x y w h k hk hk2
      simp only [Quad.AllAt]
      refine ⟨?_, ?_, ?_, ?_, ?_⟩ <;> omega)
    (by
      intro _ d x y w h k _ _ _ hk2
      simp only [fresh_tree, Quad.AllAt, and_true]
      omega)
    (by
      intro _ d x y w h k ne1 nw1 se1 sw1 hlt _ _ _ _ _ p1 p2 p3 p4 hk2
      simp only [Quad.AllAt]
      exact ⟨by omega, p1 (by omega), p2 (by omega), p3 (by omega), p4 (by omega)⟩)
    dir x y w h 0
  exact ⟨t, ht, hP (le_trans h0 h1)⟩

/-- Witness for C11: the field `x - 400` on the region `(0, 0, 800, 800)` with
`min_depth = 1` and `max_depth = 3`. -/
theorem divide_tree_depth_bound_witness :
    ∃ t, divide_tree (fun x _ => x - 400) (fresh_tree Direction.nodir (0 : ℚ) 0 800 800) 0 1 3 =
        some t ∧
      Quad.AllAt (fun k _ => k ≤ 3 + 1) 0 t :=
  divide_tree_depth_bound (fun x _ => x - 400) Direction.nodir (0 : ℚ) 0 800 800 1 3
    (by decide) (by decide)

/-- C13: for every field that is strictly positive at every point, every root region and
all `0 ≤ min_depth ≤ max_depth`, the tree built by `divide_tree` from depth 0 on a fresh
root has no node with children at a depth greater than `min_depth`, and no node of it
carries a contour. -/
theorem divide_tree_positive_field (equation : K → K → K) (dir : Direction) (x y w h : K)
    (min_depth max_depth : Int) (hpos : ∀ px py, 0 < equation px py)
    (h0 : 0 ≤ min_depth) (h1 : min_depth ≤ max_depth) :
    ∃ t, divide_tree equation (fresh_tree dir x y w h) 0 min_depth max_depth = some t ∧
      Quad.AllAt (fun k q => (min_depth < k → ¬ q.has_children) ∧ q.contour = Option.none)
        0 t := by
  obtain ⟨t, ht, _, hP⟩ := divide_tree_fresh_induction equation min_depth max_depth
    (fun _ _ _ _ _ k t => k ≤ min_depth →
      Quad.AllAt (fun j q => (min_depth < j → ¬ q.has_children) ∧ q.contour = Option.none) k t)
    (fun hlt => absurd h1 (not_le.mpr hlt))
    (by
      intro _ d x y w h k hk hk2
      have hget : ∀ a b c e : K, get_contour (corner_code equation x y w h) a b c e =
          Option.none := by
        intro a b c e
        rw [corner_code_of_pos equation hpos]
        exact get_contour_out_of_range 0 a b c e (Or.inl (by decide))
      simp only [Quad.AllAt, hget, Quad.contour, Quad.has_children, not_false_eq_true,
        implies_true, and_self, and_true]
      intro hc
      omega)
    (by
      intro _ d x y w h k _ _ _ _
      simp [fresh_tree, Quad.AllAt, Quad.has_children, Quad.contour])
    (by
      intro _ d x y w h k ne1 nw1 se1 sw1 hlt hs _ _ _ _ p1 p2 p3 p4 hk2
      have hk3 : k < min_depth := by
        rcases hs with hs | hs
        · exact hs
        · exact absurd (Or.inl (corner_code_of_pos equation hpos x y w h)) hs
      simp only [Quad.AllAt, Quad.contour, and_true]
      exact ⟨fun hc => absurd hc (by omega), p1 (by omega), p2 (by omega), p3 (by omega),
        p4 (by omega)⟩)
    dir x y w h 0
  exact ⟨t, ht, hP h0⟩

/-- Witness for C13: the constant field 1 on the region `(0, 0, 800, 800)` with
`min_depth = 2` and `max_depth = 5`. -/
theorem divide_tree_positive_field_witness :
    ∃ t, divide_tree (fun _ _ => (1 : ℚ)) (fresh_tree Direction.nodir 0 0 800 800) 0 2 5 =
        some t ∧
      Quad.AllAt (fun k q => ((2 : Int) < k → ¬ q.has_children) ∧ q.contour = Option.none)
        0 t :=
  divide_tree_positive_field (fun _ _ => (1 : ℚ)) Direction.nodir 0 0 800 800 2 5
    (fun _ _ => by norm_num) (by decide) (by decide)

/-- C20: in the tree built by `divide_tree` from a fresh root, for any field and any
integers `depth`, `min_depth`, `max_depth`, every tree-typed node has either four empty
child slots, or four tree-typed children, or four quadrant (leaf) children; and a node with
empty slots arises only from the `max_depth < min_depth` error or from sign pruning (its
depth `k` has `min_depth ≤ k < max_depth` and the code of its corners is 0 or 15). -/
theorem divide_tree_all_or_none (equation : K → K → K) (dir : Direction) (x y w h : K)
    (depth min_depth max_depth : Int) :
    ∃ t, divide_tree equation (fresh_tree dir x y w h) depth min_depth max_depth = some t ∧
      Quad.AllAt (fun k q => ∀ d qx qy qw qh ne nw se sw,
        q = Quad.tree d qx qy qw qh ne nw se sw →
          (ne = Quad.null ∧ nw = Quad.null ∧ se = Quad.null ∧ sw = Quad.null ∧
            (max_depth < min_depth ∨
              (min_depth ≤ k ∧ k < max_depth ∧
                (corner_code equation qx qy qw qh = 0 ∨
                  corner_code equation qx qy qw qh = 15)))) ∨
          (ne.type = some QuadType.tree ∧ nw.type = some QuadType.tree ∧
            se.type = some QuadType.tree ∧ sw.type = some QuadType.tree) ∨
          (ne.type = some QuadType.rant ∧ nw.type = some QuadType.rant ∧
            se.type = some QuadType.rant ∧ sw.type = some QuadType.rant)) depth t := by
  obtain ⟨t, ht, _, hP⟩ := divide_tree_fresh_induction equation min_depth max_depth
    (fun _ _ _ _ _ k t => Quad.AllAt (fun k q => ∀ d qx qy qw qh ne nw se sw,
        q = Quad.tree d qx qy qw qh ne nw se sw →
          (ne = Quad.null ∧ nw = Quad.null ∧ se = Quad.null ∧ sw = Quad.null ∧
            (max_depth < min_depth ∨
              (min_depth ≤ k ∧ k < max_depth ∧
                (corner_code equation qx qy qw qh = 0 ∨
                  corner_code equation qx qy qw qh = 15)))) ∨
          (ne.type = some QuadType.tree ∧ nw.type = some QuadType.tree ∧
            se.type = some QuadType.tree ∧ sw.type = some QuadType.tree) ∨
          (ne.type = some QuadType.rant ∧ nw.type = some QuadType.rant ∧
            se.type = some QuadType.rant ∧ sw.type = some QuadType.rant)) k t)
    (by
      intro hlt d x y w h k
      simp only [fresh_tree, Quad.AllAt, and_true]
      intro d2 qx qy qw qh ne nw se sw hq
      cases hq
      exact Or.inl ⟨rfl, rfl, rfl, rfl, Or.inl hlt⟩)
    (by
      intro _ d x y w h k hk
      simp only [Quad.AllAt]
      refine ⟨?_, ?_, ?_, ?_, ?_⟩
      · intro d2 qx qy qw qh ne nw se sw hq
        cases hq
        exact Or.inr (Or.inr ⟨rfl, rfl, rfl, rfl⟩)
      all_goals
        intro d2 qx qy qw qh ne nw se sw hq
        cases hq)
    (by
      intro _ d x y w h k hk1 hk2 hc
      simp only [fresh_tree, Quad.AllAt, and_true]
      intro d2 qx qy qw qh ne nw se sw hq
      cases hq
      exact Or.inl ⟨rfl, rfl, rfl, rfl, Or.inr ⟨hk1, hk2, hc⟩⟩)
    (by
      intro _ d x y w h k ne1 nw1 se1 sw1 _ _ t1 t2 t3 t4 p1 p2 p3 p4
      simp only [Quad.AllAt]
      refine ⟨?_, p1, p2, p3, p4⟩
      intro d2 qx qy qw qh ne nw se sw hq
      cases hq
      exact Or.inr (Or.inl ⟨t1.type_eq, t2.type_eq, t3.type_eq, t4.type_eq⟩))
    dir x y w h depth
  exact ⟨t, ht, hP⟩

/-! ## Direction tags -/

/-- In both subdividing branches the child stored in the `se` slot carries the tag `sw` and
the child stored in the `sw` slot carries the tag `se` (main.c 356, 358, 376, 378). -/
theorem divide_tree_swapped_tags (equation : K → K → K) (dir : Direction) (x y w h : K)
    (ne nw se sw : Quad K) (depth min_depth max_depth : Int)
    (h1 : min_depth ≤ max_depth) (h2 : depth < max_depth)
    (h3 : depth < min_depth ∨
      ¬ (corner_code equation x y w h = 0 ∨ corner_code equation x y w h = 15)) :
    ∃ ne1 nw1 se1 sw1 : Quad K,
      divide_tree equation (Quad.tree dir x y w h ne nw se sw) depth min_depth max_depth =
        some (Quad.tree dir x y w h ne1 nw1 se1 sw1) ∧
      ne1.dir = some Direction.ne ∧ nw1.dir = some Direction.nw ∧
      se1.dir = some Direction.sw ∧ sw1.dir = some Direction.se := by
  obtain ⟨ne1, nw1, se1, sw1, _, _, _, _, e5, t1, t2, t3, t4⟩ :=
    divide_tree_subdivides equation dir x y w h ne nw se sw depth min_depth max_depth h1 h2 h3
  obtain ⟨_, _, _, _, rfl⟩ := t1
  obtain ⟨_, _, _, _, rfl⟩ := t2
  obtain ⟨_, _, _, _, rfl⟩ := t3
  obtain ⟨_, _, _, _, rfl⟩ := t4
  exact ⟨_, _, _, _, e5, rfl, rfl, rfl, rfl⟩

/-- C19 (fails on the code): on the root `(0, 0, 800, 800)` with the constant field 1,
`depth = 0` and `min_depth = max_depth = 1`, the forced subdivision stores in the root's
`se` slot a child tagged `sw` and in its `sw` slot a child tagged `se`, so the tree built by
`divide_tree` does not have matching tags at every node. -/
theorem divide_tree_tags_mismatch :
    ∃ t ne1 nw1 se1 sw1,
      divide_tree (fun _ _ => (1 : ℚ)) (fresh_tree Direction.nodir 0 0 800 800) 0 1 1 =
        some t ∧
      t = Quad.tree Direction.nodir 0 0 800 800 ne1 nw1 se1 sw1 ∧
      se1.dir = some Direction.sw ∧ sw1.dir = some Direction.se ∧
      ¬ Quad.AllAt (fun _ q => q.tags_match) 0 t := by
  obtain ⟨ne1, nw1, se1, sw1, e, _, _, h3, h4⟩ :=
    divide_tree_swapped_tags (fun _ _ => (1 : ℚ)) Direction.nodir 0 0 800 800
      Quad.null Quad.null Quad.null Quad.null 0 1 1 (by decide) (by decide)
      (Or.inl (by decide))
  refine ⟨_, ne1, nw1, se1, sw1, e, rfl, h3, h4, ?_⟩
  simp only [Quad.AllAt, Quad.tags_match]
  intro hall
  have hse : se1 ≠ Quad.null := by
    intro hn
    rw [hn] at h3
    cases h3
  have := hall.1.2.2.1 hse
  rw [h3] at this
  cases this

/-- The max-depth branch tags its four leaves with the slots they are stored in
(main.c 322-337). -/
theorem divide_tree_leaf_tags_match (equation : K → K → K) (dir : Direction) (x y w h : K)
    (ne nw se sw : Quad K) (depth min_depth max_depth : Int)
    (h1 : min_depth ≤ max_depth) (h2 : max_depth ≤ depth) :
    ∃ t, divide_tree equation (Quad.tree dir x y w h ne nw se sw) depth min_depth max_depth =
        some t ∧ t.tags_match :=
  ⟨_, divide_tree_leaf equation dir x y w h ne nw se sw depth min_depth max_depth h1 h2,
    fun _ => rfl, fun _ => rfl, fun _ => rfl, fun _ => rfl⟩

/-! ## Saddle codes -/

/-- C18 (fails on the code): at code 5 and the region `(0, 0, 2, 2)`, `get_contour` returns
the segment from the left midpoint `(0, 1)` to the right midpoint `(2, 1)`, which joins the
midpoints of two opposite edges and not the midpoints of two adjacent edges. -/
theorem get_contour_code5_not_diagonal :
    get_contour 5 (0 : ℚ) 0 2 2 = some ⟨0, 1, 2, 1⟩ ∧
    joins (⟨0, 1, 2, 1⟩ : Contour ℚ) (opposite_edge_pairs 0 0 2 2) ∧
    ¬ joins (⟨0, 1, 2, 1⟩ : Contour ℚ) (adjacent_edge_pairs 0 0 2 2) := by
  refine ⟨?_, ?_, ?_⟩
  · norm_num [get_contour]
  · norm_num [joins, opposite_edge_pairs]
  · norm_num [joins, adjacent_edge_pairs]

/-- The two saddle entries on any region of positive width and height: code 10 joins the
midpoints of the adjacent edges top and right; code 5 joins the midpoints of the opposite
edges left and right, and no pair of adjacent edges. -/
theorem get_contour_saddles (x y w h : K) (hw : 0 < w) (hh : 0 < h) :
    (∃ s, get_contour 10 x y w h = some s ∧ joins s (adjacent_edge_pairs x y w h)) ∧
    (∃ s, get_contour 5 x y w h = some s ∧ joins s (opposite_edge_pairs x y w h) ∧
      ¬ joins s (adjacent_edge_pairs x y w h)) := by
  have hw2 : (0 : K) < w / 2 := by positivity
  have hh2 : (0 : K) < h / 2 := by positivity
  have e1 : x + w / 2 ≠ x := by intro e; linarith
  have e2 : y + h / 2 ≠ y := by intro e; linarith
  have e3 : x + w ≠ x := by intro e; linarith
  have e4 : y + h ≠ y := by intro e; linarith
  have e5 : x + w ≠ x + w / 2 := by intro e; linarith
  have e6 : y + h ≠ y + h / 2 := by intro e; linarith
  constructor
  · simp [get_contour, joins, adjacent_edge_pairs]
  · simp [get_contour, joins, adjacent_edge_pairs, opposite_edge_pairs, e1, e2, e3, e4, e5, e6,
      e1.symm, e2.symm, e3.symm, e4.symm, e5.symm, e6.symm]

/-! ## Traversal -/

/-- C15 (fails as stated): on the tree of Scenario A, a root with four leaves none of which
carries a contour, `draw_quadrant` emits no rectangle although the tree has four leaves. -/
theorem draw_quadrant_skips_leaves :
    draw_quadrant (Quad.tree Direction.nodir (0 : ℚ) 0 800 800
        (Quad.rant Direction.ne 400 0 400 400 Option.none)
        (Quad.rant Direction.nw 0 0 400 400 Option.none)
        (Quad.rant Direction.se 400 400 400 400 Option.none)
        (Quad.rant Direction.sw 0 400 400 400 Option.none)) = [] ∧
    draw_quadrant (Quad.tree Direction.nodir (0 : ℚ) 0 800 800
        (Quad.rant Direction.ne 400 0 400 400 Option.none)
        (Quad.rant Direction.nw 0 0 400 400 Option.none)
        (Quad.rant Direction.se 400 400 400 400 Option.none)
        (Quad.rant Direction.sw 0 400 400 400 Option.none)) ≠
      (Quad.tree Direction.nodir (0 : ℚ) 0 800 800
        (Quad.rant Direction.ne 400 0 400 400 Option.none)
        (Quad.rant Direction.nw 0 0 400 400 Option.none)
        (Quad.rant Direction.se 400 400 400 400 Option.none)
        (Quad.rant Direction.sw 0 400 400 400 Option.none)).leaves.filterMap Quad.region := by
  constructor
  · simp [draw_quadrant]
  · simp [draw_quadrant, Quad.leaves, Quad.region]

omit [LinearOrderedField K] in
/-- C15 (amended): for every tree, `draw_quadrant` emits exactly the rectangles of the leaves
that carry a contour, each such leaf once, in depth-first order with the child order
NE, SE, NW, SW; leaves without a contour are skipped. -/
theorem draw_quadrant_eq_contour_leaves (q : Quad K) :
    draw_quadrant q = (q.leaves.filter (fun l => l.contour.isSome)).filterMap Quad.region := by
  induction q with
  | null => rfl
  | none dir => rfl
  | rant dir x y w h c =>
    cases c <;> simp [draw_quadrant, Quad.leaves, Quad.contour, Quad.region]
  | tree dir x y w h ne nw se sw ih1 ih2 ih3 ih4 =>
    simp only [draw_quadrant, Quad.leaves, List.filter_append, List.filterMap_append,
      ih1, ih2, ih3, ih4]

/-! ## Termination -/

/-- With more fuel than `max_depth - depth`, the fuel-bounded run never hits the bound and
returns what `divide_tree` returns. -/
theorem divide_tree_fuel_eq (equation : K → K → K) (min_depth max_depth : Int) :
    ∀ (n : Nat) (depth : Int) (quad : Quad K) (k : Nat), (max_depth - depth).toNat = n →
      divide_tree_fuel equation (n + 1 + k) quad depth min_depth max_depth =
        some (divide_tree equation quad depth min_depth max_depth) := by
  intro n
  induction n using Nat.strong_induction_on with
  | _ n ih =>
    intro depth quad k hn
    rw [show n + 1 + k = (n + k) + 1 by omega]
    by_cases hmm : max_depth < min_depth
    · rw [divide_tree_err equation quad depth min_depth max_depth hmm]
      unfold divide_tree_fuel
      simp [hmm]
    cases quad with
    | null => unfold divide_tree divide_tree_fuel; simp [hmm]
    | none dir => unfold divide_tree divide_tree_fuel; simp [hmm]
    | rant dir x y w h c => unfold divide_tree divide_tree_fuel; simp [hmm]
    | tree dir x y w h ne nw se sw =>
      rw [divide_tree, divide_tree_fuel]
      by_cases hd : max_depth ≤ depth
      · simp [hmm, hd]
      · have key : ∀ q : Quad K,
            divide_tree_fuel equation (n + k) q (depth + 1) min_depth max_depth =
              some (divide_tree equation q (depth + 1) min_depth max_depth) := by
          intro q
          have := ih (n - 1) (by omega) (depth + 1) q k (by omega)
          rwa [show n - 1 + 1 + k = n + k by omega] at this
        by_cases hs : depth < min_depth
        · simp [hmm, hd, hs, key, create_quad, to_quadtree, Quad.dir]
        · by_cases hb : binary (equation x y) (equation (x + w) y)
              (equation (x + w) (y + h)) (equation x (y + h)) = 0 ∨
              binary (equation x y) (equation (x + w) y)
              (equation (x + w) (y + h)) (equation x (y + h)) = 15
          · simp [hmm, hd, hs, hb]
          · simp only [not_or] at hb
            simp [hmm, hd, hs, hb, key, create_quad, to_quadtree, Quad.dir]

/-- Every call of `divide_tree` on a tree-typed node returns a tree. -/
theorem divide_tree_tree_total (equation : K → K → K) (dir : Direction) (x y w h : K)
    (ne nw se sw : Quad K) (depth min_depth max_depth : Int) :
    ∃ t, divide_tree equation (Quad.tree dir x y w h ne nw se sw) depth min_depth max_depth =
      some t := by
  by_cases hmm : max_depth < min_depth
  · exact ⟨_, divide_tree_err equation _ depth min_depth max_depth hmm⟩
  have hle : min_depth ≤ max_depth := not_lt.mp hmm
  by_cases hd : max_depth ≤ depth
  · exact ⟨_, divide_tree_leaf equation dir x y w h ne nw se sw depth min_depth max_depth hle hd⟩
  have hlt : depth < max_depth := not_le.mp hd
  by_cases hs : depth < min_depth ∨
      ¬ (corner_code equation x y w h = 0 ∨ corner_code equation x y w h = 15)
  · obtain ⟨ne1, nw1, se1, sw1, _, _, _, _, e5, _⟩ :=
      divide_tree_subdivides equation dir x y w h ne nw se sw depth min_depth max_depth hle hlt hs
    exact ⟨_, e5⟩
  · have hs2 : corner_code equation x y w h = 0 ∨ corner_code equation x y w h = 15 := by
      by_contra hc
      exact hs (Or.inr hc)
    have hs1 : min_depth ≤ depth := by
      by_contra hc
      exact hs (Or.inl (not_le.mp hc))
    exact ⟨_, divide_tree_prune equation dir x y w h ne nw se sw depth min_depth max_depth
      hs1 hlt hs2⟩

/-- C17: for every field, every node and all integers `depth`, `min_depth`, `max_depth`,
`divide_tree` terminates: a run that allows `(max_depth - depth) + 1` nested calls (one for
the call itself when `depth ≥ max_depth`, since that branch makes no recursive call), or any
larger number, never reaches its bound and returns the result of `divide_tree`; on a
tree-typed node that result is a tree. -/
theorem divide_tree_terminates (equation : K → K → K) (quad : Quad K)
    (depth min_depth max_depth : Int) (k : Nat) :
    divide_tree_fuel equation ((max_depth - depth).toNat + 1 + k) quad depth min_depth
        max_depth = some (divide_tree equation quad depth min_depth max_depth) ∧
    (quad.type = some QuadType.tree →
      ∃ t, divide_tree_fuel equation ((max_depth - depth).toNat + 1 + k) quad depth min_depth
        max_depth = some (some t)) := by
  have h1 := divide_tree_fuel_eq equation min_depth max_depth _ depth quad k rfl
  refine ⟨h1, ?_⟩
  intro hq
  cases quad with
  | tree dir x y w h ne nw se sw =>
    obtain ⟨t, ht⟩ := divide_tree_tree_total equation dir x y w h ne nw se sw depth min_depth
      max_depth
    exact ⟨t, by rw [h1, ht]⟩
  | null => cases hq
  | none dir => cases hq
  | rant dir x y w h c => cases hq

/-- The bound is really consumed: with fuel for a single call, a forced subdivision runs out
of fuel in its recursive calls. -/
theorem divide_tree_fuel_exhausted :
    divide_tree_fuel (fun _ _ => (1 : ℚ)) 1 (fresh_tree Direction.nodir 0 0 800 800) 0 1 1 =
      Option.none := by
  simp [divide_tree_fuel, fresh_tree, create_quad, to_quadtree, Quad.dir]

/-- Witness for C17: Scenario B from depth 0 with `max_depth = 3`; four nested calls are
enough and the run returns a tree. -/
theorem divide_tree_terminates_witness :
    ∃ t, divide_tree_fuel (fun x _ => x - 400) (((3 : Int) - 0).toNat + 1 + 0)
      (fresh_tree Direction.nodir (0 : ℚ) 0 800 800) 0 1 3 = some (some t) :=
  (divide_tree_terminates (fun x _ => x - 400) (fresh_tree Direction.nodir (0 : ℚ) 0 800 800)
    0 1 3 0).2 rfl

/-! ## Scenario B: the field `x - 400` -/

omit [LinearOrderedField K] in
theorem Quad.AnyAt_mono {P Q : Int → Quad K → Prop} (hPQ : ∀ k q, P k q → Q k q) :
    ∀ (t : Quad K) (d : Int), Quad.AnyAt P d t → Quad.AnyAt Q d t := by
  intro t
  induction t with
  | null => intro d hp; exact hp
  | none dir => intro d hp; exact hPQ _ _ hp
  | rant dir x y w h c => intro d hp; exact hPQ _ _ hp
  | tree dir x y w h ne nw se sw ih1 ih2 ih3 ih4 =>
    intro d hp
    simp only [Quad.AnyAt] at hp ⊢
    rcases hp with hp | hp | hp | hp | hp
    · exact Or.inl (hPQ _ _ hp)
    · exact Or.inr (Or.inl (ih1 _ hp))
    · exact Or.inr (Or.inr (Or.inl (ih2 _ hp)))
    · exact Or.inr (Or.inr (Or.inr (Or.inl (ih3 _ hp))))
    · exact Or.inr (Or.inr (Or.inr (Or.inr (ih4 _ hp))))

omit [LinearOrderedField K] in
theorem Quad.AllAt_of_any {P Q : Int → Quad K → Prop} :
    ∀ (t : Quad K) (d : Int), Quad.AllAt Q d t → Quad.AnyAt P d t → ∃ k q, P k q ∧ Q k q := by
  intro t
  induction t with
  | null => intro d _ hp; exact hp.elim
  | none dir => intro d hq hp; exact ⟨_, _, hp, hq⟩
  | rant dir x y w h c => intro d hq hp; exact ⟨_, _, hp, hq⟩
  | tree dir x y w h ne nw se sw ih1 ih2 ih3 ih4 =>
    intro d hq hp
    simp only [Quad.AnyAt, Quad.AllAt] at hp hq
    rcases hp with hp | hp | hp | hp | hp
    · exact ⟨_, _, hp, hq.1⟩
    · exact ih1 _ hq.2.1 hp
    · exact ih2 _ hq.2.2.1 hp
    · exact ih3 _ hq.2.2.2.1 hp
    · exact ih4 _ hq.2.2.2.2 hp

/-- Codes of the field `x - 400`: a region right of the line has code 0, a region left of
or up to the line has code 15, a region whose left edge is on the line has code 9. -/
theorem corner_code_scenario_b (x y w h : ℚ) (hw : 0 < w) :
    (400 < x → corner_code (fun x _ => x - 400) x y w h = 0) ∧
    (x + w ≤ 400 → corner_code (fun x _ => x - 400) x y w h = 15) ∧
    (x = 400 → corner_code (fun x _ => x - 400) x y w h = 9) := by
  refine ⟨?_, ?_, ?_⟩
  · intro hx
    have h1 : 400 < x + w := by linarith
    simp [corner_code, binary, hx, h1]
  · intro hx
    have h1 : ¬ 400 < x + w := by linarith
    have h2 : ¬ 400 < x := by linarith
    simp [corner_code, binary, h1, h2]
  · intro hx
    subst hx
    simp [corner_code, binary, hw]

/-- In Scenario B every cell reached at a depth 1..3 has width `800 / 2^depth` and lies
left of the line, right of it at distance at least its width, or with its left edge on it;
in the subtree built for such a cell every contour lies in the strip `400 ≤ x ≤ 500`. -/
theorem scenario_b_cells (d : Direction) (x y w h : ℚ) (k : Int) (hk1 : 1 ≤ k) (hk3 : k ≤ 3)
    (hw : w * 2 ^ k.toNat = 800) (hx : x = 400 ∨ 400 + w ≤ x ∨ x + w ≤ 400) :
    ∃ t, divide_tree (fun x _ => x - 400) (fresh_tree d x y w h) k 1 3 = some t ∧
      Quad.AllAt (fun _ q => ∀ c, q.contour = some c →
        400 ≤ c.x1 ∧ c.x1 ≤ 500 ∧ 400 ≤ c.x2 ∧ c.x2 ≤ 500) k t := by
  have hpos : ∀ (w : ℚ) (k : Int), w * 2 ^ k.toNat = 800 → 0 < w := by
    intro w k hw
    have h2 : (0 : ℚ) < 2 ^ k.toNat := by positivity
    by_contra hc
    have : w * 2 ^ k.toNat ≤ 0 := mul_nonpos_of_nonpos_of_nonneg (not_lt.mp hc) h2.le
    linarith
  obtain ⟨t, ht, _, hP⟩ := divide_tree_fresh_induction (fun (x : ℚ) (_ : ℚ) => x - 400) 1 3
    (fun _ x _ w _ k t => 1 ≤ k → k ≤ 3 → w * 2 ^ k.toNat = 800 →
      (x = 400 ∨ 400 + w ≤ x ∨ x + w ≤ 400) →
      Quad.AllAt (fun _ q => ∀ c, q.contour = some c →
        400 ≤ c.x1 ∧ c.x1 ≤ 500 ∧ 400 ≤ c.x2 ∧ c.x2 ≤ 500) k t)
    (fun hlt => absurd hlt (by decide))
    (by
      intro _ d x y w h k hk _ hk3 hw hx
      have hk' : k = 3 := le_antisymm hk3 hk
      subst hk'
      have hw' : w = 100 := by
        rw [show (3 : Int).toNat = 3 from rfl] at hw
        linarith
      subst hw'
      have hleaf : ∀ (dl : Direction) (lx ly : ℚ), (lx = x ∨ lx = x + 100 / 2) →
          ∀ c, (Quad.rant dl lx ly (100 / 2) (h / 2)
            (get_contour (corner_code (fun x _ => x - 400) x y 100 h) lx ly (100 / 2)
              (h / 2))).contour = some c →
          400 ≤ c.x1 ∧ c.x1 ≤ 500 ∧ 400 ≤ c.x2 ∧ c.x2 ≤ 500 := by
        intro dl lx ly hlx c hc
        have hcodes := corner_code_scenario_b x y 100 h (by norm_num)
        rcases hx with hx | hx | hx
        · subst hx
          rw [hcodes.2.2 rfl] at hc
          simp only [Quad.contour, get_contour] at hc
          norm_num at hc
          subst hc
          rcases hlx with rfl | rfl <;> norm_num
        · rw [hcodes.1 (by linarith)] at hc
          simp [Quad.contour, get_contour] at hc
        · rw [hcodes.2.1 hx] at hc
          simp [Quad.contour, get_contour] at hc
      simp only [Quad.AllAt]
      refine ⟨?_, hleaf _ _ _ (Or.inr rfl), hleaf _ _ _ (Or.inl rfl), hleaf _ _ _ (Or.inr rfl),
        hleaf _ _ _ (Or.inl rfl)⟩
      intro c hc
      simp [Quad.contour] at hc)
    (by
      intro _ d x y w h k _ _ _ _ _ _ _
      simp [fresh_tree, Quad.AllAt, Quad.contour])
    (by
      intro _ d x y w h k ne1 nw1 se1 sw1 hlt hs _ _ _ _ p1 p2 p3 p4 hk1 _ hw hx
      have hw0 : 0 < w := hpos w k hw
      have hcodes := corner_code_scenario_b x y w h hw0
      have hx' : x = 400 := by
        rcases hs with hs | hs
        · omega
        · rcases hx with hx | hx | hx
          · exact hx
          · exact absurd (Or.inl (hcodes.1 (by linarith))) hs
          · exact absurd (Or.inr (hcodes.2.1 hx)) hs
      subst hx'
      have he : (k + 1).toNat = k.toNat + 1 := by omega
      have hw2 : w / 2 * 2 ^ (k + 1).toNat = 800 := by
        rw [he, pow_succ, ← hw]
        ring
      simp only [Quad.AllAt]
      refine ⟨?_, p1 (by omega) (by omega) hw2 (Or.inr (Or.inl (le_refl _))),
        p2 (by omega) (by omega) hw2 (Or.inl rfl),
        p3 (by omega) (by omega) hw2 (Or.inr (Or.inl (le_refl _))),
        p4 (by omega) (by omega) hw2 (Or.inl rfl)⟩
      intro c hc
      simp [Quad.contour] at hc)
    d x y w h k
  exact ⟨t, ht, hP hk1 hk3 hw hx⟩

/-- In Scenario B the tree contains, at depth 4, the leaf `(400, 0, 50, 50)` with the
contour from `(400, 25)` to `(450, 25)`: root, NE quadrant `(400, 0, 400, 400)`, its NW
quadrant `(400, 0, 200, 200)`, its NW quadrant `(400, 0, 100, 100)` (all of code 9), and
the NW leaf of that cell. -/
theorem scenario_b_leaf :
    ∃ t, divide_tree (fun x _ => x - 400) (fresh_tree Direction.nodir (0 : ℚ) 0 800 800) 0 1 3 =
        some t ∧
      Quad.AnyAt (fun k q => k = 4 ∧
        q = Quad.rant Direction.nw 400 0 50 50 (some ⟨400, 25, 450, 25⟩)) 0 t := by
  have hcode : ∀ (y w h : ℚ), 0 < w → ¬ (corner_code (fun x _ => x - 400) 400 y w h = 0 ∨
      corner_code (fun x _ => x - 400) 400 y w h = 15) := by
    intro y w h hw
    rw [(corner_code_scenario_b 400 y w h hw).2.2 rfl]
    decide
  obtain ⟨a1, a2, a3, a4, ha1, _, _, _, hta, _⟩ :=
    divide_tree_subdivides (fun (x : ℚ) (_ : ℚ) => x - 400) Direction.nodir 0 0 800 800
      Quad.null Quad.null Quad.null Quad.null 0 1 3 (by decide) (by decide) (Or.inl (by decide))
  norm_num at ha1
  obtain ⟨b1, b2, b3, b4, _, hb2, _, _, htb, _⟩ :=
    divide_tree_subdivides (fun (x : ℚ) (_ : ℚ) => x - 400) Direction.ne 400 0 400 400
      Quad.null Quad.null Quad.null Quad.null 1 1 3 (by decide) (by decide)
      (Or.inr (hcode 0 400 400 (by norm_num)))
  norm_num at hb2
  obtain ⟨c1, c2, c3, c4, _, hc2, _, _, htc, _⟩ :=
    divide_tree_subdivides (fun (x : ℚ) (_ : ℚ) => x - 400) Direction.nw 400 0 200 200
      Quad.null Quad.null Quad.null Quad.null 2 1 3 (by decide) (by decide)
      (Or.inr (hcode 0 200 200 (by norm_num)))
  norm_num at hc2
  have htd := divide_tree_leaf (fun (x : ℚ) (_ : ℚ) => x - 400) Direction.nw 400 0 100 100
    Quad.null Quad.null Quad.null Quad.null 3 1 3 (by decide) (by decide)
  rw [(corner_code_scenario_b 400 0 100 100 (by norm_num)).2.2 rfl] at htd
  have e1 : a1 = _ := Option.some.inj (ha1.symm.trans htb)
  have e2 : b2 = _ := Option.some.inj (hb2.symm.trans htc)
  have e3 : c2 = _ := Option.some.inj (hc2.symm.trans htd)
  subst e1 e2 e3
  refine ⟨_, hta, ?_⟩
  simp only [Quad.AnyAt]
  refine Or.inr (Or.inl (Or.inr (Or.inr (Or.inl (Or.inr (Or.inr (Or.inl
    (Or.inr (Or.inr (Or.inl ⟨by norm_num, ?_⟩))))))))))
  norm_num [get_contour]

/-- C14 (fails as stated): in Scenario B (field `x - 400`, region `(0, 0, 800, 800)`,
`min_depth = 1`, `max_depth = 3`, built from depth 0) the tree has a leaf whose contour is
not a vertical segment on the line `x = 400`: the leaf `(400, 0, 50, 50)` carries the
segment from `(400, 25)` to `(450, 25)`. -/
theorem scenario_b_not_vertical :
    ∃ t, divide_tree (fun x _ => x - 400) (fresh_tree Direction.nodir (0 : ℚ) 0 800 800) 0 1 3 =
        some t ∧
      Quad.AnyAt (fun k q => k = 4 ∧
        q = Quad.rant Direction.nw 400 0 50 50 (some ⟨400, 25, 450, 25⟩)) 0 t ∧
      ¬ Quad.AllAt (fun _ q => ∀ c, q.contour = some c → c.x1 = 400 ∧ c.x2 = 400) 0 t := by
  obtain ⟨t, ht, hany⟩ := scenario_b_leaf
  refine ⟨t, ht, hany, ?_⟩
  intro hall
  obtain ⟨k, q, ⟨_, hq⟩, hv⟩ := Quad.AllAt_of_any t 0 hall hany
  subst hq
  have := (hv ⟨400, 25, 450, 25⟩ rfl).2
  norm_num at this

/-- C14 (amended): in Scenario B the tree built by `divide_tree` contains at least one leaf
with a contour, and every contour carried by a node of the tree lies in the strip beside the
line `x = 400`: both endpoints have `400 ≤ x ≤ 500`. -/
theorem scenario_b_contours_in_strip :
    ∃ t, divide_tree (fun x _ => x - 400) (fresh_tree Direction.nodir (0 : ℚ) 0 800 800) 0 1 3 =
        some t ∧
      Quad.AnyAt (fun _ q => q.contour ≠ Option.none) 0 t ∧
      Quad.AllAt (fun _ q => ∀ c, q.contour = some c →
        400 ≤ c.x1 ∧ c.x1 ≤ 500 ∧ 400 ≤ c.x2 ∧ c.x2 ≤ 500) 0 t := by
  obtain ⟨t, ht, hany⟩ := scenario_b_leaf
  refine ⟨t, ht, ?_, ?_⟩
  · refine Quad.AnyAt_mono ?_ t 0 hany
    rintro k q ⟨_, rfl⟩
    simp [Quad.contour]
  · obtain ⟨a1, a2, a3, a4, ha1, ha2, ha3, ha4, hta, _⟩ :=
      divide_tree_subdivides (fun (x : ℚ) (_ : ℚ) => x - 400) Direction.nodir 0 0 800 800
        Quad.null Quad.null Quad.null Quad.null 0 1 3 (by decide) (by decide)
        (Or.inl (by decide))
    have e : t = _ := Option.some.inj (ht.symm.trans hta)
    subst e
    norm_num at ha1 ha2 ha3 ha4
    have hpw : (400 : ℚ) * 2 ^ (1 : Int).toNat = 800 := by
      rw [show (1 : Int).toNat = 1 from rfl]
      norm_num
    obtain ⟨b1, hb1, p1⟩ := scenario_b_cells Direction.ne 400 0 400 400 1 (by decide)
      (by decide) hpw (Or.inl rfl)
    obtain ⟨b2, hb2, p2⟩ := scenario_b_cells Direction.nw 0 0 400 400 1 (by decide)
      (by decide) hpw (Or.inr (Or.inr (by norm_num)))
    obtain ⟨b3, hb3, p3⟩ := scenario_b_cells Direction.sw 400 400 400 400 1 (by decide)
      (by decide) hpw (Or.inl rfl)
    obtain ⟨b4, hb4, p4⟩ := scenario_b_cells Direction.se 0 400 400 400 1 (by decide)
      (by decide) hpw (Or.inr (Or.inr (by norm_num)))
    have e1 : a1 = b1 := Option.some.inj (ha1.symm.trans hb1)
    have e2 : a2 = b2 := Option.some.inj (ha2.symm.trans hb2)
    have e3 : a3 = b3 := Option.some.inj (ha3.symm.trans hb3)
    have e4 : a4 = b4 := Option.some.inj (ha4.symm.trans hb4)
    subst e1 e2 e3 e4
    simp only [Quad.AllAt, zero_add]
    refine ⟨?_, p1, p2, p3, p4⟩
    intro c hc
    simp [Quad.contour] at hc

end FunctionPlotter
